import Mathlib

/-!
Verification of the tabular core of the amazon-seller-assistant repository
(`src/tools/xlsx_processor_tool.py`).

The embedding models a pandas `DataFrame` as a list of column names together
with a list of rows, each row a list of cells.  A cell is a tagged value
{Text, Number, Missing}; pandas `NaN`/`None` is `Cell.missing`.  Machine
floats are modelled as exact rationals (ℚ); python float literals such as
`0.30` are rendered as the corresponding decimal rationals.

pandas behaviours relevant here, and how they are modelled:
* `pd.to_numeric(errors="coerce")` — `toNumericCell` with a decimal parser
  (`parseNumber`); unparsable text becomes `missing`, never an error.
* `Series.astype(str)` — `cellToStr`; `NaN` stringifies to `"nan"`, floats
  stringify to their decimal representation (`ratToString`).
* `str.strip()` — `pyStrip`, dropping whitespace from both ends.
* `str.rstrip("%")` — `rstripPercent`, dropping all trailing `%`.
* `DataFrame.sort_values(c, ascending=False)` — pandas `nargsort` reverses
  the values, takes an ascending argsort, and reverses the result, placing
  missing keys last in original order; with a stable underlying argsort this
  is exactly a stable descending sort with missing keys last, which is what
  `sortRowsDesc` implements (the default numpy kind is an insertion sort,
  hence stable, at the row counts exercised here).
* `DataFrame.nlargest(n, c)` (keep="first") — drops rows whose key is
  missing, stable-sorts descending, takes `n` (`nlargestBy`).
* column access `df[c]` on an absent column raises `KeyError`; fallible
  operations are embedded in `Except String`.
Loaded tables have unique column labels (`read_excel` mangles duplicate
headers), so theorems about whole tables assume `Nodup` columns where the
proof needs distinct column positions.
-/

unseal Rat.mul Rat.inv Rat.add Rat.sub

namespace SellerAssistant

/-- Decidable equality for fallible results, used to evaluate the concrete
scenarios below. -/
instance exceptDecEq {ε α : Type} [DecidableEq ε] [DecidableEq α] :
    DecidableEq (Except ε α) := fun x y =>
  match x, y with
  | Except.ok a, Except.ok b =>
      if h : a = b then isTrue (by rw [h])
      else isFalse (fun he => h (Except.ok.inj he))
  | Except.error a, Except.error b =>
      if h : a = b then isTrue (by rw [h])
      else isFalse (fun he => h (Except.error.inj he))
  | Except.ok _, Except.error _ => isFalse (fun he => Except.noConfusion he)
  | Except.error _, Except.ok _ => isFalse (fun he => Except.noConfusion he)

/-- A single spreadsheet cell: text, an (exact-rational) number, or missing
(pandas `NaN`). -/
inductive Cell where
  | text (s : String)
  | num (q : ℚ)
  | missing
deriving DecidableEq

/-- A pandas `DataFrame`: ordered column labels plus rows of cells.  The
row-major data is kept rectangular by construction in all reachable states;
theorems assume rectangularity explicitly where needed. -/
structure Table where
  cols : List String
  rows : List (List Cell)
deriving DecidableEq

/-- Rectangularity of a table: every row has exactly one cell per column. -/
def Table.rect (t : Table) : Bool :=
  t.rows.all (fun r => r.length = t.cols.length)

/-- Index of a column label (first occurrence), `none` when absent. -/
def colIdx (t : Table) (c : String) : Option Nat :=
  t.cols.findIdx? (fun x => x = c)

/-- Cell of a row at a column position (missing when out of range; rows are
rectangular in all reachable states, so the default is never exercised
there). -/
def cellAt (r : List Cell) (i : Nat) : Cell :=
  r.getD i Cell.missing

/-- The cells of column `i`, top to bottom. -/
def colCells (t : Table) (i : Nat) : List Cell :=
  t.rows.map (fun r => cellAt r i)

/-- The cells of a named column (first occurrence), `[]` when absent. -/
def colCellsByName (t : Table) (c : String) : List Cell :=
  match colIdx t c with
  | some i => colCells t i
  | none => []

/-- The cell of a row under a named column of `t`. -/
def cellByName (t : Table) (r : List Cell) (c : String) : Cell :=
  match colIdx t c with
  | some i => cellAt r i
  | none => Cell.missing

/-- Column access that raises `KeyError` when the label is absent, as
`df[c]` does. -/
def getColIdxE (t : Table) (c : String) : Except String Nat :=
  match colIdx t c with
  | some i => Except.ok i
  | none => Except.error ("KeyError: " ++ c)

/-- Column assignment `df[c] = <series derived from df>`: overwrite in place
when the label exists, else append a new rightmost column.  The assigned
series is row-aligned, hence given as a function of the row. -/
def assignCol (t : Table) (c : String) (f : List Cell → Cell) : Table :=
  match colIdx t c with
  | some i => { t with rows := t.rows.map (fun r => r.set i (f r)) }
  | none => { cols := t.cols ++ [c], rows := t.rows.map (fun r => r ++ [f r]) }

/-- Per-column cleaning step guarded by `if col in df.columns`: map a cell
transformation over one column, skipping silently when the column is
absent. -/
def coerceCol (t : Table) (c : String) (f : Cell → Cell) : Table :=
  match colIdx t c with
  | some i => { t with rows := t.rows.map (fun r => r.set i (f (cellAt r i))) }
  | none => t

/-- Value of a digit list, most significant first (guards are checked by the
callers). -/
def digitsToNat (cs : List Char) : Nat :=
  cs.foldl (fun a c => a * 10 + (c.toNat - 48)) 0

/-- Decimal fragment of the python float parser used by
`pd.to_numeric(errors="coerce")`: `digits`, `digits.digits`, `digits.` or
`.digits` (scientific notation does not occur in the data considered
here). -/
def parseUnsigned (cs : List Char) : Option ℚ :=
  let ip := cs.takeWhile (fun c => c ≠ '.')
  let rest := cs.dropWhile (fun c => c ≠ '.')
  match rest with
  | [] =>
      if ip ≠ [] ∧ ip.all Char.isDigit then some ((digitsToNat ip : ℚ)) else none
  | c :: fp =>
      if c = '.' ∧ (ip ≠ [] ∨ fp ≠ []) ∧ ip.all Char.isDigit ∧ fp.all Char.isDigit then
        some ((digitsToNat ip : ℚ) + (digitsToNat fp : ℚ) / (10 : ℚ) ^ fp.length)
      else none

/-- Signed decimal parser: `parseNumber "3.4512" = some (34512/10000)`. -/
def parseNumber (s : String) : Option ℚ :=
  match s.data with
  | [] => none
  | c :: rest =>
      if c = '-' then (parseUnsigned rest).map (fun q => -q)
      else if c = '+' then parseUnsigned rest
      else parseUnsigned (c :: rest)

/-- `pd.to_numeric(errors="coerce")` on one cell: numbers pass through,
parsable text becomes a number, anything else becomes missing — never an
error. -/
def toNumericCell : Cell → Cell
  | Cell.text s => match parseNumber s with
      | some q => Cell.num q
      | none => Cell.missing
  | Cell.num q => Cell.num q
  | Cell.missing => Cell.missing

/-- Smallest exponent `k ≤ 40` with `d ∣ 10 ^ k`, used to print decimal
representations. -/
def pow10Exp (d : Nat) : Option Nat :=
  (List.range 41).find? (fun k => decide (d ∣ 10 ^ k))

/-- Python `str()` of a float, modelled on decimal-representable rationals:
integers print as `"3.0"`, decimal fractions print with trailing zeros
stripped (`"0.034512"`).  Rationals outside that range (unreachable from
parsed spreadsheet data) fall back to a fraction spelling. -/
def ratToString (q : ℚ) : String :=
  if q.den = 1 then toString q.num ++ ".0"
  else
    match pow10Exp q.den with
    | some k =>
        let n : Nat := q.num.natAbs * (10 ^ k / q.den)
        let ds := (toString n).data
        let padded := List.replicate (k + 1 - ds.length) '0' ++ ds
        let ipart := padded.take (padded.length - k)
        let fdigits := (padded.drop (padded.length - k)).reverse.dropWhile (fun c => c = '0')
        let fpart := if fdigits.isEmpty then ['0'] else fdigits.reverse
        (if q.num < 0 then "-" else "") ++ String.mk ipart ++ "." ++ String.mk fpart
    | none => toString q.num ++ "/" ++ toString q.den

/-- `Series.astype(str)` on one cell; `NaN` prints as `"nan"`. -/
def cellToStr : Cell → String
  | Cell.text s => s
  | Cell.num q => ratToString q
  | Cell.missing => "nan"

/-- Python `str.strip()`: drop whitespace from both ends. -/
def pyStrip (s : String) : String :=
  String.mk (((s.data.dropWhile Char.isWhitespace).reverse.dropWhile Char.isWhitespace).reverse)

/-- Python `str.rstrip("%")`: drop every trailing `%`. -/
def rstripPercent (s : String) : String :=
  String.mk ((s.data.reverse.dropWhile (fun c => c = '%')).reverse)

/-- ASIN-column cleaning `df[col].astype(str).str.strip()` on one cell. -/
def stripCell (cl : Cell) : Cell :=
  Cell.text (pyStrip (cellToStr cl))

/-- Percentage-column conversion of `preprocess_sif`:
`df[col].astype(str).str.rstrip("%")` followed by
`pd.to_numeric(errors="coerce") / 100` on one cell. -/
def percentCell (cl : Cell) : Cell :=
  match parseNumber (rstripPercent (cellToStr cl)) with
  | some q => Cell.num (q / 100)
  | none => Cell.missing

/-- Sort key of a row cell: missing (and, unreachable after numeric
coercion, text) keys act as bottom, so a descending sort places them
last. -/
def sortKey : Cell → Option ℚ
  | Cell.num q => some q
  | _ => none

/-- Strict order on sort keys with `none` as bottom. -/
def keyLt : Option ℚ → Option ℚ → Bool
  | none, some _ => true
  | some a, some b => decide (a < b)
  | _, _ => false

/-- Stable descending insertion: `x` is placed before the first element
whose key is not greater than `x`'s, so equal keys keep the original
relative order when the elements are fed right to left. -/
def insertDesc (key : α → Option ℚ) (x : α) : List α → List α
  | [] => [x]
  | y :: ys =>
      if keyLt (key x) (key y) then y :: insertDesc key x ys
      else x :: y :: ys

/-- Stable descending sort with missing keys last, the net effect of
pandas `sort_values(ascending=False)` (see the module comment). -/
def sortRowsDesc (key : α → Option ℚ) : List α → List α
  | [] => []
  | x :: xs => insertDesc key x (sortRowsDesc key xs)

/-- `df.sort_values(c, ascending=False)`, skipped silently when the column
is absent (the `if c in df.columns` guard of the source).  `reset_index
(drop=True)` is a no-op in this model, which has no index. -/
def sortByColDesc (t : Table) (c : String) : Table :=
  match colIdx t c with
  | some i => { t with rows := sortRowsDesc (fun r => sortKey (cellAt r i)) t.rows }
  | none => t

/-- `df.dropna(subset=[c])`: drop the rows whose `c`-cell is missing;
`KeyError` when the column is absent. -/
def dropnaCol (t : Table) (c : String) : Except String Table :=
  match colIdx t c with
  | some i => Except.ok { t with rows := t.rows.filter (fun r => cellAt r i ≠ Cell.missing) }
  | none => Except.error ("KeyError: " ++ c)

/-- Numeric columns of `preprocess_seller_elf`. -/
def sellerNumericCols : List String :=
  ["月搜索量", "月购买量", "购买率", "展示量", "点击量",
   "商品数", "需供比", "广告竞品数", "ABA周排名", "预估周曝光量"]

/-- Percentage-looking columns of `preprocess_seller_elf`, coerced to
numeric without rescaling. -/
def sellerPercentageCols : List String :=
  ["流量占比", "点击总占比", "转化总占比",
   "#1 点击共享", "#1 转化共享", "#2 点击共享", "#2 转化共享",
   "#3 点击共享", "#3 转化共享"]

/-- ASIN list columns of `preprocess_seller_elf`, kept as trimmed text. -/
def sellerAsinCols : List String :=
  ["相关ASIN", "前十ASIN", "#1 前三ASIN", "#2 前三ASIN", "#3 前三ASIN"]

/-- Numeric columns of `preprocess_sif`. -/
def sifNumericCols : List String :=
  ["周搜索量", "在售商品数", "周搜索量排名", "有效竞品数"]

/-- Substring containment, python `pat in s`, at the character-list
level. -/
def hasInfix (pat : List Char) : List Char → Bool
  | [] => pat.isEmpty
  | c :: rest => pat.isPrefixOf (c :: rest) || hasInfix pat rest

/-- Per-competitor percentage column test of `preprocess_sif`:
`col.startswith("B0") and "关键词类型" not in col`. -/
def isSifPercentCol (c : String) : Bool :=
  "B0".data.isPrefixOf c.data && !hasInfix "关键词类型".data c.data

/-- Everything `preprocess_seller_elf` does before its final sort: drop
missing-keyword rows, numeric-coerce the designated and percentage columns,
trim the ASIN columns. -/
def sellerPreSort (t : Table) : Except String Table := do
  let t1 ← dropnaCol t "关键词"
  let t2 := sellerNumericCols.foldl (fun a c => coerceCol a c toNumericCell) t1
  let t3 := sellerPercentageCols.foldl (fun a c => coerceCol a c toNumericCell) t2
  pure (sellerAsinCols.foldl (fun a c => coerceCol a c stripCell) t3)

/-- `XlsxProcessorTool.preprocess_seller_elf`. -/
def preprocess_seller_elf (t : Table) : Except String Table :=
  (sellerPreSort t).map (fun u => sortByColDesc u "月搜索量")

/-- Everything `preprocess_sif` does before its final sort: drop
missing-keyword rows, numeric-coerce the designated columns, convert the
per-competitor percentage columns. -/
def sifPreSort (t : Table) : Except String Table := do
  let t1 ← dropnaCol t "关键词"
  let t2 := sifNumericCols.foldl (fun a c => coerceCol a c toNumericCell) t1
  pure ((t2.cols.filter isSifPercentCol).foldl (fun a c => coerceCol a c percentCell) t2)

/-- `XlsxProcessorTool.preprocess_sif`. -/
def preprocess_sif (t : Table) : Except String Table :=
  (sifPreSort t).map (fun u => sortByColDesc u "周搜索量")

/-- Required column sets for format detection (`SELLER_ELF_KEY_COLUMNS`,
`SIF_KEY_COLUMNS`). -/
def sellerElfKeyColumns : List String :=
  ["关键词", "月搜索量", "月购买量", "购买率", "前十ASIN"]

/-- Required columns of the `sif` profile. -/
def sifKeyColumns : List String :=
  ["关键词", "周搜索量", "在售商品数", "周搜索量排名"]

/-- `XlsxProcessorTool.detect_file_format`: subset test of the required
column names against the header set, else unknown (`none`). -/
def detect_file_format (t : Table) : Option String :=
  if sellerElfKeyColumns.all (fun c => t.cols.contains c) then some "seller_elf"
  else if sifKeyColumns.all (fun c => t.cols.contains c) then some "sif"
  else none

/-- `XlsxProcessorTool.preprocess_dataframe` with `format_type=None`:
profile-specific preprocessing after auto-detection, identity for unknown
formats. -/
def preprocess_dataframe (t : Table) : Except String Table :=
  match detect_file_format t with
  | some "seller_elf" => preprocess_seller_elf t
  | some "sif" => preprocess_sif t
  | _ => Except.ok t

/-- `fillna(0)` on one cell. -/
def fillnaZero : Cell → Cell
  | Cell.missing => Cell.num 0
  | cl => cl

/-- Column division `series / m` on one cell; missing propagates
(`NaN / m = NaN`). -/
def divCell : Cell → ℚ → Cell
  | Cell.num q, m => Cell.num (q / m)
  | _, _ => Cell.missing

/-- `series.max()` restricted to the numeric cells (pandas `max` skips
`NaN`); `none` for an all-missing or empty column, whose pandas max is `NaN`
and fails the `> 0` test. -/
def maxOfCells (cells : List Cell) : Option ℚ :=
  cells.foldl
    (fun acc cl =>
      match cl with
      | Cell.num q => match acc with
          | some m => some (max m q)
          | none => some q
      | _ => acc)
    none

/-- Guard used before the scoring arithmetic: pandas raises `TypeError`
once `max`, `>` or `/` meets a string cell in a metric column, so the
embedding rejects text cells in those columns up front. -/
def colAllNumOrMissing (t : Table) (i : Nat) : Bool :=
  t.rows.all (fun r =>
    match cellAt r i with
    | Cell.text _ => false
    | _ => true)

/-- TypeError check for one metric column. -/
def checkNoTextAt (t : Table) (i : Nat) : Except String Unit :=
  if colAllNumOrMissing t i then Except.ok () else Except.error "TypeError"

/-- Normalisation of the plain metric columns
(`df[cn] = df[c] / df[c].max() if df[c].max() > 0 else 0`): divide by a
positive maximum, scalar `0` otherwise (also when the max of an all-missing
column is `NaN`, which fails `> 0`).  Missing values propagate through the
division. -/
def normACell (m : Option ℚ) (cl : Cell) : Cell :=
  match m with
  | some mq => if 0 < mq then divCell cl mq else Cell.num 0
  | none => Cell.num 0

/-- Second stage of the fillna-style normalisation: divide by the maximum
of the already-filled column when that maximum is positive, else leave the
filled values untouched. -/
def normBCell (m : Option ℚ) (cl : Cell) : Cell :=
  match m with
  | some mq => if 0 < mq then divCell cl mq else cl
  | none => cl

/-- One `_norm` assignment of the plain kind (`월`): lines 450-452 of the
source. -/
def stepA (t : Table) (c : String) : Except String Table := do
  let i ← getColIdxE t c
  let _ ← checkNoTextAt t i
  Except.ok (assignCol t (c ++ "_norm")
    (fun r => normACell (maxOfCells (colCells t i)) (cellAt r i)))

/-- One `_norm` assignment of the fillna kind (lines 455-462): first
`df[cn] = df[c].fillna(0)`, then divide `df[cn]` by its own maximum when
positive. -/
def stepB (t : Table) (c : String) : Except String Table := do
  let i ← getColIdxE t c
  let _ ← checkNoTextAt t i
  let t1 := assignCol t (c ++ "_norm") (fun r => fillnaZero (cellAt r i))
  let j ← getColIdxE t1 (c ++ "_norm")
  match maxOfCells (colCells t1 j) with
  | some mq =>
      if 0 < mq then
        Except.ok (assignCol t1 (c ++ "_norm") (fun r => divCell (cellAt r j) mq))
      else Except.ok t1
  | none => Except.ok t1

/-- Weighted composite of the five normalised cells
(`0.30/0.25/0.20/0.15/0.10`); any missing contribution makes the score
missing (`NaN` arithmetic). -/
def scoreCells (a b c d e : Cell) : Cell :=
  match a, b, c, d, e with
  | Cell.num qa, Cell.num qb, Cell.num qc, Cell.num qd, Cell.num qe =>
      Cell.num (qa * (30 / 100) + qb * (25 / 100) + qc * (20 / 100) +
                qd * (15 / 100) + qe * (10 / 100))
  | _, _, _, _, _ => Cell.missing

/-- Final `relevance_score` assignment (lines 466-472). -/
def stepScore (t : Table) : Except String Table := do
  let j1 ← getColIdxE t "月搜索量_norm"
  let j2 ← getColIdxE t "月购买量_norm"
  let j3 ← getColIdxE t "购买率_norm"
  let j4 ← getColIdxE t "流量占比_norm"
  let j5 ← getColIdxE t "周搜索量_norm"
  Except.ok (assignCol t "relevance_score"
    (fun r => scoreCells (cellAt r j1) (cellAt r j2) (cellAt r j3)
      (cellAt r j4) (cellAt r j5)))

/-- STEP 2 of `process_input_files`: five normalised columns then the
composite relevance score. -/
def computeScores (t : Table) : Except String Table := do
  let t1 ← stepA t "月搜索量"
  let t2 ← stepA t1 "月购买量"
  let t3 ← stepA t2 "购买率"
  let t4 ← stepB t3 "流量占比"
  let t5 ← stepB t4 "周搜索量"
  stepScore t5

/-- `df.nlargest(n, c)` with the default `keep="first"`: rows whose key is
missing are dropped, the rest are stable-sorted descending and the first
`n` kept. -/
def nlargestBy (t : Table) (n : Nat) (c : String) : Except String Table := do
  let i ← getColIdxE t c
  let keep := t.rows.filter (fun r =>
    match cellAt r i with
    | Cell.num _ => true
    | _ => false)
  Except.ok { t with rows := (sortRowsDesc (fun r => sortKey (cellAt r i)) keep).take n }

/-- Comma split, python `s.split(",")`: every string splits into one more
piece than it has commas; the empty string yields `[""]`. -/
def splitOnComma : List Char → List (List Char)
  | [] => [[]]
  | c :: rest =>
      let r := splitOnComma rest
      if c = ',' then [] :: r
      else
        match r with
        | [] => [[c]]
        | h :: t => (c :: h) :: t

/-- Comma-split then per-entry `strip()` of one ASIN list cell. -/
def splitStrip (s : String) : List String :=
  (splitOnComma s.data).map (fun cs => pyStrip (String.mk cs))

/-- First-seen-order deduplication, `list(dict.fromkeys(xs))`. -/
def dedupFirstSeen (xs : List String) : List String :=
  xs.foldl (fun acc s => if acc.contains s then acc else acc ++ [s]) []

/-- STEP 4 of `process_input_files` as written in the source: iterate the
selected rows' ASIN cells (`dropna` skips missing, `isinstance(str)` skips
numbers), split on commas, strip, extend an accumulator, then deduplicate
first-seen and truncate to 10. -/
def aggregateAsins (cells : List Cell) : List String :=
  let all := cells.foldl
    (fun acc cl =>
      match cl with
      | Cell.text s => acc ++ splitStrip s
      | _ => acc)
    []
  (dedupFirstSeen all).take 10

/-- Mean of the numeric cells of a column (pandas `mean` skips `NaN`);
`none` when no numeric cell exists, in which case pandas yields `NaN`. -/
def meanOfCells (cells : List Cell) : Option ℚ :=
  let nums := cells.filterMap (fun cl =>
    match cl with
    | Cell.num q => some q
    | _ => none)
  if nums.length = 0 then none else some (nums.sum / nums.length)

/-- Truncation toward zero, python `int(float)`. -/
def ratTruncInt (q : ℚ) : Int :=
  if 0 ≤ q.num then ((q.num.natAbs / q.den : Nat) : Int)
  else -((q.num.natAbs / q.den : Nat) : Int)

/-- `series.astype(int)` on one cell: floats truncate toward zero, strings
must spell an integer, `NaN` raises `ValueError` — hence `none` = raise. -/
def cellToInt : Cell → Option Int
  | Cell.num q => some (ratTruncInt q)
  | Cell.text s =>
      (match parseNumber s with
       | some q => if q.den = 1 then some q.num else none
       | none => none)
  | Cell.missing => none

/-- Python `dict(...)` insertion: first-seen key position, last value
wins. -/
def dictInsert (m : List (Cell × Int)) (k : Cell) (v : Int) : List (Cell × Int) :=
  if m.any (fun p => p.1 = k) then m.map (fun p => if p.1 = k then (k, v) else p)
  else m ++ [(k, v)]

/-- `dict(zip(keys, vals))`. -/
def dictOfZip (keys : List Cell) (vals : List Int) : List (Cell × Int) :=
  (keys.zip vals).foldl (fun m p => dictInsert m p.1 p.2) []

/-- Column projection `df[[c1, …, ck]]`; `KeyError` when one is absent. -/
def projectCols (t : Table) (cs : List String) : Except String Table :=
  match cs.mapM (fun c => colIdx t c) with
  | some is => Except.ok { cols := cs, rows := t.rows.map (fun r => is.map (fun i => cellAt r i)) }
  | none => Except.error "KeyError: projection"

/-- Left join `pd.merge(l, r, on=key, how="left")`: every left row paired
with each right row whose key cell is equal (pandas matches `NaN` keys with
each other); unmatched left rows get missing right cells; duplicate right
keys produce one output row per match.  Overlap of non-key labels would be
suffixed `_x`/`_y` by pandas and the later fixed-name accesses of the
pipeline would then raise; the model folds that corner into an error. -/
def mergeLeft (l r : Table) (key : String) : Except String Table := do
  let li ← getColIdxE l key
  let ri ← getColIdxE r key
  let rcols := r.cols.filter (fun c => c ≠ key)
  if rcols.any (fun c => l.cols.contains c) then
    Except.error "overlapping non-key columns"
  else
    let rIdxs := rcols.map (fun c => (colIdx r c).getD 0)
    Except.ok
      { cols := l.cols ++ rcols
        rows := l.rows.flatMap (fun lr =>
          let k := cellAt lr li
          let ms := r.rows.filter (fun rr => cellAt rr ri = k)
          match ms with
          | [] => [lr ++ rcols.map (fun _ => Cell.missing)]
          | _ => ms.map (fun rr => lr ++ rIdxs.map (fun i => cellAt rr i))) }

/-- The `InputBundle` returned by `process_input_files`. -/
structure Bundle where
  brand_name : String
  product_type : String
  competitor_brands : List String
  core_keywords : List Cell
  word_frequency : List (Cell × Int)
  competitor_titles : List String
  five_points_requirements : List String
  meta_total_keywords_analyzed : Nat
  meta_top_keywords_selected : Nat
  meta_average_monthly_search : Int
  meta_average_purchase_rate : Option ℚ
  meta_competitor_asins : List String
deriving DecidableEq

/-- `XlsxProcessorTool.process_input_files` on two already-loaded tables
(the `read_excel` calls are the I/O boundary): merge the raw tables on the
keyword key, score, select the top `n`, and aggregate the bundle.  Note
that the profile preprocessors are not invoked on this path. -/
def process_input_files (seller sif : Table) (brand ptype : String) (n : Nat) :
    Except String Bundle := do
  let proj ← projectCols sif ["关键词", "周搜索量", "周搜索量排名", "在售商品数"]
  let merged ← mergeLeft seller proj "关键词"
  let scored ← computeScores merged
  let top ← nlargestBy scored n "relevance_score"
  let ki ← getColIdxE top "关键词"
  let core_keywords := (colCells top ki)
  let mi ← getColIdxE top "月搜索量"
  let freqs ← (colCells top mi).mapM (fun cl =>
    match cellToInt cl with
    | some z => Except.ok z
    | none => Except.error "ValueError: astype(int)")
  let word_frequency := dictOfZip core_keywords freqs
  let competitor_asins :=
    if top.cols.contains "前十ASIN" then
      aggregateAsins (colCellsByName top "前十ASIN")
    else []
  let competitor_brands := ["UGG", "Bearpaw", "Dearfoams", "Skechers", "Crocs"]
  let competitor_titles :=
    (core_keywords.take 5).map (fun cl => cellToStr cl ++ " - Premium Quality")
  let five_points :=
    [ "Optimized for top keyword: " ++
        (match core_keywords.head? with
         | some cl => cellToStr cl
         | none => "slippers"),
      "Target high-conversion terms like '" ++
        (match core_keywords.get? 1 with
         | some cl => cellToStr cl
         | none => "comfortable") ++ "'",
      "Plush, cozy comfort (faux fur/fleece lining)",
      "Durable, non-slip rubber outsole",
      "True-to-size fit with wide-width options" ]
  let avgMonthly ← (match meanOfCells (colCells top mi) with
    | some q => Except.ok (ratTruncInt q)
    | none => Except.error "ValueError: int(nan)")
  let pi ← getColIdxE top "购买率"
  let avgPurchase := meanOfCells (colCells top pi)
  Except.ok
    { brand_name := brand
      product_type := ptype
      competitor_brands := competitor_brands
      core_keywords := core_keywords
      word_frequency := word_frequency
      competitor_titles := competitor_titles
      five_points_requirements := five_points
      meta_total_keywords_analyzed := merged.rows.length
      meta_top_keywords_selected := n
      meta_average_monthly_search := avgMonthly
      meta_average_purchase_rate := avgPurchase
      meta_competitor_asins := competitor_asins }

/-- JSON values as emitted by `json.dumps` on a record: `null`, a number, a
string, or the out-of-spec `NaN` literal that `json.dumps` would emit for a
float `nan` (`allow_nan` defaults to true). -/
inductive JVal where
  | jnull
  | jnum (q : ℚ)
  | jstr (s : String)
  | jnan
deriving DecidableEq

/-- Serialisation of one cell by `json.dumps` without the `replace` guard:
a missing cell would surface as the `NaN` literal. -/
def dumpCellRaw : Cell → JVal
  | Cell.text s => JVal.jstr s
  | Cell.num q => JVal.jnum q
  | Cell.missing => JVal.jnan

/-- The `df.replace({np.nan: None})` guard of `format_as_json`. -/
def replaceNanNone : Cell → Cell
  | Cell.missing => Cell.missing
  | cl => cl

/-- `format_as_json(df)` with the default `orient="records"` and no row
cap, at the JSON-tree level: one record per row pairing each column label
with the serialised cell; the `replace({np.nan: None})` step turns every
missing cell into an explicit `null`.  `to_dict` refuses duplicate column
labels (pandas raises `ValueError`), hence the `Nodup` guard. -/
def format_as_json (t : Table) : Except String (List (List (String × JVal))) :=
  if t.cols.Nodup then
    Except.ok (t.rows.map (fun r =>
      t.cols.enum.map (fun ci =>
        (ci.2, match cellAt r ci.1 with
               | Cell.missing => JVal.jnull
               | cl => dumpCellRaw cl))))
  else Except.error "ValueError: DataFrame columns must be unique"

/-- Parsing one JSON value back into a cell (`json.loads` then table
reconstruction): the explicit `null` token becomes a missing cell. -/
def parseJVal : JVal → Cell
  | JVal.jnull => Cell.missing
  | JVal.jnum q => Cell.num q
  | JVal.jstr s => Cell.text s
  | JVal.jnan => Cell.missing

/-- Does a serialised table contain the JSON-invalid `NaN` literal
anywhere? -/
def hasNanLiteral (recs : List (List (String × JVal))) : Bool :=
  recs.any (fun rec => rec.any (fun p => p.2 = JVal.jnan))

/-- Modelled from the spec: the data-flow section routes both loaded tables
through the profile-specific Schema Normalizer before the Joiner, so the
spec-side pipeline normalises each table and only then runs the join,
scoring, selection and aggregation of `process_input_files`. -/
def process_with_normalization (seller sif : Table) (brand ptype : String) (n : Nat) :
    Except String Bundle := do
  let s ← preprocess_seller_elf seller
  let f ← preprocess_sif sif
  process_input_files s f brand ptype n

/-- Modelled from the spec (Scorer section, claim C1): every one of the
five metrics is normalised as value/max, with 0 whenever the column maximum
is not positive, undefined, or the raw value is null; the claimed score is
the fixed weighted sum of these normalised values. -/
def claimedNorm (m : Option ℚ) (cl : Cell) : ℚ :=
  match m with
  | some mq =>
      if 0 < mq then
        match cl with
        | Cell.num q => q / mq
        | _ => 0
      else 0
  | none => 0

/-- Modelled from the spec: the composite relevance score the claim
asserts, as a plain rational. -/
def claimedScore (t : Table) (r : List Cell) : ℚ :=
  claimedNorm (maxOfCells (colCellsByName t "月搜索量")) (cellByName t r "月搜索量") * (30 / 100) +
  claimedNorm (maxOfCells (colCellsByName t "月购买量")) (cellByName t r "月购买量") * (25 / 100) +
  claimedNorm (maxOfCells (colCellsByName t "购买率")) (cellByName t r "购买率") * (20 / 100) +
  claimedNorm (maxOfCells (colCellsByName t "流量占比")) (cellByName t r "流量占比") * (15 / 100) +
  claimedNorm (maxOfCells (colCellsByName t "周搜索量")) (cellByName t r "周搜索量") * (10 / 100)

/-- What the code actually computes for one row (proved below): the plain
metrics keep missing values missing — a null monthly volume, purchase count
or purchase rate makes the whole score missing — while the two fillna-style
metrics (traffic share, weekly volume) treat null as 0; columns whose
maximum is not positive contribute 0 (plain kind) or their filled raw value
(fillna kind). -/
def amendedScore (t : Table) (r : List Cell) : Cell :=
  scoreCells
    (normACell (maxOfCells (colCellsByName t "月搜索量")) (cellByName t r "月搜索量"))
    (normACell (maxOfCells (colCellsByName t "月购买量")) (cellByName t r "月购买量"))
    (normACell (maxOfCells (colCellsByName t "购买率")) (cellByName t r "购买率"))
    (normBCell (maxOfCells ((colCellsByName t "流量占比").map fillnaZero))
      (fillnaZero (cellByName t r "流量占比")))
    (normBCell (maxOfCells ((colCellsByName t "周搜索量").map fillnaZero))
      (fillnaZero (cellByName t r "周搜索量")))

/-! ### List and index lemmas -/

theorem findIdx?_lt_length {p : α → Bool} {l : List α} {i : Nat}
    (h : l.findIdx? p = some i) : i < l.length :=
  (List.findIdx?_eq_some_iff_findIdx_eq.mp h).1

theorem findIdx?_pred {p : α → Bool} {l : List α} {i : Nat} {d : α}
    (h : l.findIdx? p = some i) : p (l.getD i d) = true := by
  obtain ⟨hlt, hp, -⟩ := List.findIdx?_eq_some_iff_getElem.mp h
  rw [List.getD_eq_getElem?_getD, List.getElem?_eq_getElem hlt]
  simpa using hp

theorem findIdx?_append_left {p : α → Bool} {l l' : List α} {i : Nat}
    (h : l.findIdx? p = some i) : (l ++ l').findIdx? p = some i := by
  rw [List.findIdx?_append, h]
  rfl

theorem findIdx?_append_none {p : α → Bool} {l l' : List α}
    (h : l.findIdx? p = none) :
    (l ++ l').findIdx? p = (l'.findIdx? p).map (fun i => i + l.length) := by
  rw [List.findIdx?_append, h]
  rfl

/-- Position of a column label: `colIdx` is `none` exactly off the label
set. -/
theorem colIdx_eq_none_iff {t : Table} {c : String} :
    colIdx t c = none ↔ c ∉ t.cols := by
  unfold colIdx
  rw [List.findIdx?_eq_none_iff]
  constructor
  · intro h hc
    simpa using h c hc
  · intro h a ha
    by_cases hac : a = c
    · exact absurd (hac ▸ ha) h
    · simpa using hac

theorem colIdx_name {t : Table} {c : String} {i : Nat} (h : colIdx t c = some i) :
    t.cols.getD i "" = c := by
  have := findIdx?_pred (d := "") h
  simpa using this

/-- Distinct labels sit at distinct positions. -/
theorem colIdx_ne {t : Table} {c c' : String} {i j : Nat}
    (hc : colIdx t c = some i) (hc' : colIdx t c' = some j) (hne : c ≠ c') :
    i ≠ j := by
  intro hij
  subst hij
  exact hne ((colIdx_name hc).symm.trans (colIdx_name hc'))

theorem cellAt_append_lt {r s : List Cell} {i : Nat} (h : i < r.length) :
    cellAt (r ++ s) i = cellAt r i := by
  unfold cellAt
  rw [List.getD_eq_getElem?_getD, List.getD_eq_getElem?_getD,
    List.getElem?_append_left h]

theorem cellAt_append_len {r s : List Cell} {i : Nat} (h : r.length = i) :
    cellAt (r ++ s) i = cellAt s 0 := by
  unfold cellAt
  subst h
  rw [List.getD_eq_getElem?_getD, List.getD_eq_getElem?_getD,
    List.getElem?_append_right (Nat.le_refl _)]
  simp

theorem cellAt_append_add {r s : List Cell} {k : Nat} :
    cellAt (r ++ s) (r.length + k) = cellAt s k := by
  unfold cellAt
  rw [List.getD_eq_getElem?_getD, List.getD_eq_getElem?_getD,
    List.getElem?_append_right (Nat.le_add_right _ _)]
  simp

theorem cellAt_set_ne {r : List Cell} {i j : Nat} {v : Cell} (h : i ≠ j) :
    cellAt (r.set i v) j = cellAt r j := by
  unfold cellAt
  rw [List.getD_eq_getElem?_getD, List.getD_eq_getElem?_getD,
    List.getElem?_set_ne h]

theorem cellAt_set_self {r : List Cell} {i : Nat} {v : Cell} (h : i < r.length) :
    cellAt (r.set i v) i = v := by
  unfold cellAt
  rw [List.getD_eq_getElem?_getD, List.getElem?_set_self (by simpa using h)]
  simp

theorem set_cellAt_self {r : List Cell} {i : Nat} : r.set i (cellAt r i) = r := by
  induction r generalizing i with
  | nil => simp
  | cons a r ih =>
      cases i with
      | zero => simp [cellAt]
      | succ i =>
          simp only [cellAt, List.getD_cons_succ, List.set_cons_succ, List.cons.injEq, true_and]
          exact ih

theorem set_of_length_le {r : List Cell} {i : Nat} {v : Cell} (h : r.length ≤ i) :
    r.set i v = r := by
  induction r generalizing i with
  | nil => simp
  | cons a r ih =>
      cases i with
      | zero => simp at h
      | succ i => simpa using ih (by simpa using h)

theorem set_append_len {r s : List Cell} {i : Nat} {v : Cell} (h : r.length = i) :
    (r ++ s).set i v = r ++ s.set 0 v := by
  subst h
  induction r with
  | nil => simp
  | cons a r ih => simp [ih]

/-! ### Stable descending sort: ordering, stability, idempotence -/

/-- Non-strict key order used for sortedness: earlier keys are not smaller. -/
def keyGe (a b : Option ℚ) : Prop := keyLt a b = false

theorem insertDesc_cons_pos {key : α → Option ℚ} {x y : α} {ys : List α}
    (h : keyLt (key x) (key y) = true) :
    insertDesc key x (y :: ys) = y :: insertDesc key x ys := by
  simp [insertDesc, h]

theorem insertDesc_cons_neg {key : α → Option ℚ} {x y : α} {ys : List α}
    (h : keyLt (key x) (key y) = false) :
    insertDesc key x (y :: ys) = x :: y :: ys := by
  simp [insertDesc, h]

theorem keyLt_asymm {a b : Option ℚ} (h : keyLt a b = true) : keyLt b a = false := by
  cases a <;> cases b <;> simp [keyLt] at h ⊢
  · exact le_of_lt h

theorem keyLt_irrefl (a : Option ℚ) : keyLt a a = false := by
  cases a <;> simp [keyLt]

theorem keyGe_trans {a b c : Option ℚ} (hab : keyGe a b) (hbc : keyGe b c) :
    keyGe a c := by
  cases a <;> cases b <;> cases c <;> simp [keyGe, keyLt] at hab hbc ⊢
  · exact le_trans hbc hab

theorem keyLt_ne {a b : Option ℚ} (h : keyLt a b = true) : a ≠ b := by
  intro he
  subst he
  rw [keyLt_irrefl] at h
  exact Bool.false_ne_true h

theorem mem_insertDesc {key : α → Option ℚ} {x y : α} {l : List α}
    (h : y ∈ insertDesc key x l) : y = x ∨ y ∈ l := by
  induction l with
  | nil => simpa [insertDesc] using h
  | cons a l ih =>
      cases hk : keyLt (key x) (key a) with
      | true =>
          rw [insertDesc_cons_pos hk] at h
          rcases List.mem_cons.mp h with rfl | h'
          · exact Or.inr (List.mem_cons_self _ _)
          · rcases ih h' with h'' | h''
            · exact Or.inl h''
            · exact Or.inr (List.mem_cons_of_mem _ h'')
      | false =>
          rw [insertDesc_cons_neg hk] at h
          rcases List.mem_cons.mp h with rfl | h'
          · exact Or.inl rfl
          · exact Or.inr h'

theorem perm_insertDesc (key : α → Option ℚ) (x : α) (l : List α) :
    (insertDesc key x l).Perm (x :: l) := by
  induction l with
  | nil => simp [insertDesc]
  | cons a l ih =>
      cases hk : keyLt (key x) (key a) with
      | true =>
          rw [insertDesc_cons_pos hk]
          exact (ih.cons a).trans (List.Perm.swap x a l)
      | false =>
          rw [insertDesc_cons_neg hk]

theorem perm_sortRowsDesc (key : α → Option ℚ) (l : List α) :
    (sortRowsDesc key l).Perm l := by
  induction l with
  | nil => simp [sortRowsDesc]
  | cons a l ih =>
      unfold sortRowsDesc
      exact (perm_insertDesc key a (sortRowsDesc key l)).trans (ih.cons a)

theorem mem_sortRowsDesc {key : α → Option ℚ} {l : List α} {x : α}
    (h : x ∈ sortRowsDesc key l) : x ∈ l :=
  (perm_sortRowsDesc key l).mem_iff.mp h

theorem pairwise_insertDesc {key : α → Option ℚ} {x : α} {l : List α}
    (h : l.Pairwise (fun a b => keyGe (key a) (key b))) :
    (insertDesc key x l).Pairwise (fun a b => keyGe (key a) (key b)) := by
  induction l with
  | nil => simp [insertDesc]
  | cons a l ih =>
      rw [List.pairwise_cons] at h
      cases hk : keyLt (key x) (key a) with
      | true =>
          rw [insertDesc_cons_pos hk, List.pairwise_cons]
          constructor
          · intro y hy
            rcases mem_insertDesc hy with rfl | hy'
            · exact keyLt_asymm hk
            · exact h.1 y hy'
          · exact ih h.2
      | false =>
          rw [insertDesc_cons_neg hk, List.pairwise_cons]
          refine ⟨?_, List.pairwise_cons.mpr h⟩
          intro y hy
          rcases List.mem_cons.mp hy with rfl | hy'
          · exact hk
          · exact keyGe_trans (show keyGe (key x) (key a) from hk) (h.1 y hy')

theorem pairwise_sortRowsDesc (key : α → Option ℚ) (l : List α) :
    (sortRowsDesc key l).Pairwise (fun a b => keyGe (key a) (key b)) := by
  induction l with
  | nil => simp [sortRowsDesc]
  | cons a l ih =>
      unfold sortRowsDesc
      exact pairwise_insertDesc ih

theorem sortRowsDesc_eq_of_pairwise {key : α → Option ℚ} {l : List α}
    (h : l.Pairwise (fun a b => keyGe (key a) (key b))) :
    sortRowsDesc key l = l := by
  induction l with
  | nil => rfl
  | cons a l ih =>
      rw [List.pairwise_cons] at h
      unfold sortRowsDesc
      rw [ih h.2]
      cases l with
      | nil => rfl
      | cons b l' => exact insertDesc_cons_neg (h.1 b (List.mem_cons_self _ _))

theorem sortRowsDesc_idem (key : α → Option ℚ) (l : List α) :
    sortRowsDesc key (sortRowsDesc key l) = sortRowsDesc key l :=
  sortRowsDesc_eq_of_pairwise (pairwise_sortRowsDesc key l)

theorem filter_insertDesc_eq {key : α → Option ℚ} {x : α} {l : List α} :
    (insertDesc key x l).filter (fun y => key y = key x) =
      x :: l.filter (fun y => key y = key x) := by
  induction l with
  | nil => simp [insertDesc]
  | cons a l ih =>
      cases hk : keyLt (key x) (key a) with
      | true =>
          have hne : (decide (key a = key x)) = false := by
            simp only [decide_eq_false_iff_not]
            intro he
            exact keyLt_ne hk he.symm
          rw [insertDesc_cons_pos hk, List.filter_cons, List.filter_cons]
          simp only [hne, Bool.false_eq_true, if_false]
          exact ih
      | false =>
          rw [insertDesc_cons_neg hk, List.filter_cons]
          simp

theorem filter_insertDesc_ne {key : α → Option ℚ} {x : α} {l : List α}
    {k : Option ℚ} (hne : key x ≠ k) :
    (insertDesc key x l).filter (fun y => key y = k) =
      l.filter (fun y => key y = k) := by
  induction l with
  | nil => simp [insertDesc, hne]
  | cons a l ih =>
      cases hk : keyLt (key x) (key a) with
      | true =>
          rw [insertDesc_cons_pos hk, List.filter_cons, List.filter_cons]
          by_cases ha : key a = k <;> simp [ha, ih]
      | false =>
          rw [insertDesc_cons_neg hk, List.filter_cons, List.filter_cons]
          simp [hne]

/-- Stability of the descending sort: for every key value, the rows carrying
that key appear in the sorted output in their original relative order. -/
theorem sortRowsDesc_filter (key : α → Option ℚ) (l : List α) (k : Option ℚ) :
    (sortRowsDesc key l).filter (fun y => key y = k) =
      l.filter (fun y => key y = k) := by
  induction l with
  | nil => rfl
  | cons a l ih =>
      unfold sortRowsDesc
      by_cases ha : key a = k
      · subst ha
        rw [filter_insertDesc_eq, ih, List.filter_cons]
        simp
      · rw [filter_insertDesc_ne ha, ih, List.filter_cons]
        simp [ha]

/-! ### Table stage lemmas: column preservation and cell invariants -/

theorem colIdx_eq_of_cols_eq {u v : Table} (h : u.cols = v.cols) (c : String) :
    colIdx u c = colIdx v c := by
  unfold colIdx
  rw [h]

theorem table_rows_eq {t : Table} {X : List (List Cell)} (h : X = t.rows) :
    ({ t with rows := X } : Table) = t := by
  cases t
  rw [h]

theorem coerceCol_cols (t : Table) (c : String) (f : Cell → Cell) :
    (coerceCol t c f).cols = t.cols := by
  unfold coerceCol
  cases colIdx t c <;> rfl

theorem foldl_coerceCol_cols (L : List String) (t : Table) (f : Cell → Cell) :
    (L.foldl (fun a c => coerceCol a c f) t).cols = t.cols := by
  induction L generalizing t with
  | nil => rfl
  | cons d L ih => rw [List.foldl_cons, ih, coerceCol_cols]

theorem dropnaCol_cols {t u : Table} {c : String} (h : dropnaCol t c = Except.ok u) :
    u.cols = t.cols := by
  unfold dropnaCol at h
  cases hx : colIdx t c with
  | none => rw [hx] at h; cases h
  | some i =>
      rw [hx] at h
      cases h
      rfl

theorem sortByColDesc_cols (t : Table) (c : String) :
    (sortByColDesc t c).cols = t.cols := by
  unfold sortByColDesc
  cases colIdx t c <;> rfl

/-- Invariant: every row of `u` carries a non-missing cell in column `c`. -/
def ColNonMissing (u : Table) (c : String) : Prop :=
  ∀ i, colIdx u c = some i → ∀ r ∈ u.rows, cellAt r i ≠ Cell.missing

/-- Invariant: the cells of column `c` (within row bounds) are fixed points
of the cleaning function `f`. -/
def FixedCol (u : Table) (c : String) (f : Cell → Cell) : Prop :=
  ∀ i, colIdx u c = some i → ∀ r ∈ u.rows, i < r.length →
    f (cellAt r i) = cellAt r i

theorem dropnaCol_nonMissing {t u : Table} {c : String}
    (h : dropnaCol t c = Except.ok u) : ColNonMissing u c := by
  unfold dropnaCol at h
  cases hx : colIdx t c with
  | none => rw [hx] at h; cases h
  | some i =>
      rw [hx] at h
      cases h
      intro j hj r hr
      have hji : some i = some j := hx.symm.trans hj
      cases hji
      have := (List.mem_filter.mp hr).2
      simpa using this

theorem coerceCol_preserves_nonMissing {u : Table} {c c' : String} {f : Cell → Cell}
    (hne : c' ≠ c) (h : ColNonMissing u c) : ColNonMissing (coerceCol u c' f) c := by
  intro j hj r hr
  rw [colIdx_eq_of_cols_eq (coerceCol_cols u c' f) c] at hj
  unfold coerceCol at hr
  cases hx : colIdx u c' with
  | none =>
      rw [hx] at hr
      exact h j hj r hr
  | some i =>
      rw [hx] at hr
      simp only [List.mem_map] at hr
      obtain ⟨r₀, hr₀, rfl⟩ := hr
      have hij : i ≠ j := colIdx_ne hx hj hne
      rw [cellAt_set_ne hij]
      exact h j hj r₀ hr₀

theorem foldl_coerceCol_preserves_nonMissing {u : Table} {c : String}
    {L : List String} {f : Cell → Cell} (hL : ∀ d ∈ L, d ≠ c)
    (h : ColNonMissing u c) :
    ColNonMissing (L.foldl (fun a d => coerceCol a d f) u) c := by
  induction L generalizing u with
  | nil => exact h
  | cons d L ih =>
      rw [List.foldl_cons]
      exact ih (fun e he => hL e (List.mem_cons_of_mem _ he))
        (coerceCol_preserves_nonMissing (hL d (List.mem_cons_self _ _)) h)

theorem sortByColDesc_preserves_nonMissing {u : Table} {c c' : String}
    (h : ColNonMissing u c) : ColNonMissing (sortByColDesc u c') c := by
  intro j hj r hr
  rw [colIdx_eq_of_cols_eq (sortByColDesc_cols u c') c] at hj
  unfold sortByColDesc at hr
  cases hx : colIdx u c' with
  | none =>
      rw [hx] at hr
      exact h j hj r hr
  | some i =>
      rw [hx] at hr
      exact h j hj r (mem_sortRowsDesc hr)

theorem coerceCol_establishes_fixed {u : Table} {c : String} {f : Cell → Cell}
    (hf : ∀ x, f (f x) = f x) : FixedCol (coerceCol u c f) c f := by
  intro j hj r hr hlen
  rw [colIdx_eq_of_cols_eq (coerceCol_cols u c f) c] at hj
  unfold coerceCol at hr
  rw [hj] at hr
  simp only [List.mem_map] at hr
  obtain ⟨r₀, hr₀, rfl⟩ := hr
  rw [List.length_set] at hlen
  rw [cellAt_set_self hlen]
  exact hf _

theorem coerceCol_preserves_fixed {u : Table} {c c' : String} {f f' : Cell → Cell}
    (hf : ∀ x, f (f x) = f x) (hcase : c' ≠ c ∨ f' = f)
    (h : FixedCol u c f) : FixedCol (coerceCol u c' f') c f := by
  intro j hj r hr hlen
  rw [colIdx_eq_of_cols_eq (coerceCol_cols u c' f') c] at hj
  unfold coerceCol at hr
  cases hx : colIdx u c' with
  | none =>
      rw [hx] at hr
      exact h j hj r hr hlen
  | some i =>
      rw [hx] at hr
      simp only [List.mem_map] at hr
      obtain ⟨r₀, hr₀, rfl⟩ := hr
      rw [List.length_set] at hlen
      rcases hcase with hne | rfl
      · have hij : i ≠ j := colIdx_ne hx hj hne
        rw [cellAt_set_ne hij]
        exact h j hj r₀ hr₀ hlen
      · by_cases hij : i = j
        · subst hij
          rw [cellAt_set_self hlen]
          exact hf _
        · rw [cellAt_set_ne hij]
          exact h j hj r₀ hr₀ hlen

theorem foldl_coerceCol_preserves_fixed_same {u : Table} {c : String}
    {L : List String} {f : Cell → Cell} (hf : ∀ x, f (f x) = f x)
    (h : FixedCol u c f) :
    FixedCol (L.foldl (fun a d => coerceCol a d f) u) c f := by
  induction L generalizing u with
  | nil => exact h
  | cons d L ih =>
      rw [List.foldl_cons]
      exact ih (coerceCol_preserves_fixed hf (Or.inr rfl) h)

theorem foldl_coerceCol_preserves_fixed_ne {u : Table} {c : String}
    {L : List String} {f f' : Cell → Cell} (hf : ∀ x, f (f x) = f x)
    (hL : ∀ d ∈ L, d ≠ c) (h : FixedCol u c f) :
    FixedCol (L.foldl (fun a d => coerceCol a d f') u) c f := by
  induction L generalizing u with
  | nil => exact h
  | cons d L ih =>
      rw [List.foldl_cons]
      exact ih (fun e he => hL e (List.mem_cons_of_mem _ he))
        (coerceCol_preserves_fixed hf (Or.inl (hL d (List.mem_cons_self _ _))) h)

theorem foldl_coerceCol_establishes {u : Table} {L : List String}
    {f : Cell → Cell} (hf : ∀ x, f (f x) = f x) {c : String} (hc : c ∈ L) :
    FixedCol (L.foldl (fun a d => coerceCol a d f) u) c f := by
  induction L generalizing u with
  | nil => cases hc
  | cons d L ih =>
      rw [List.foldl_cons]
      rcases List.mem_cons.mp hc with rfl | hc'
      · exact foldl_coerceCol_preserves_fixed_same hf
          (coerceCol_establishes_fixed hf)
      · exact ih hc'

theorem sortByColDesc_preserves_fixed {u : Table} {c c' : String} {f : Cell → Cell}
    (h : FixedCol u c f) : FixedCol (sortByColDesc u c') c f := by
  intro j hj r hr hlen
  rw [colIdx_eq_of_cols_eq (sortByColDesc_cols u c') c] at hj
  unfold sortByColDesc at hr
  cases hx : colIdx u c' with
  | none =>
      rw [hx] at hr
      exact h j hj r hr hlen
  | some i =>
      rw [hx] at hr
      exact h j hj r (mem_sortRowsDesc hr) hlen

theorem coerceCol_eq_self {u : Table} {c : String} {f : Cell → Cell}
    (h : FixedCol u c f) : coerceCol u c f = u := by
  unfold coerceCol
  cases hx : colIdx u c with
  | none => rfl
  | some i =>
      apply table_rows_eq
      have : ∀ r ∈ u.rows, r.set i (f (cellAt r i)) = r := by
        intro r hr
        by_cases hlen : i < r.length
        · rw [h i hx r hr hlen]
          exact set_cellAt_self
        · exact set_of_length_le (Nat.le_of_not_lt hlen)
      calc u.rows.map (fun r => r.set i (f (cellAt r i)))
          = u.rows.map id := List.map_congr_left this
        _ = u.rows := List.map_id _

theorem foldl_coerceCol_eq_self {u : Table} {L : List String} {f : Cell → Cell}
    (h : ∀ c ∈ L, FixedCol u c f) :
    L.foldl (fun a c => coerceCol a c f) u = u := by
  induction L with
  | nil => rfl
  | cons d L ih =>
      rw [List.foldl_cons, coerceCol_eq_self (h d (List.mem_cons_self _ _))]
      exact ih (fun c hc => h c (List.mem_cons_of_mem _ hc))

theorem dropnaCol_eq_self {u : Table} {c : String} {i : Nat}
    (hx : colIdx u c = some i) (h : ColNonMissing u c) :
    dropnaCol u c = Except.ok u := by
  unfold dropnaCol
  rw [hx]
  dsimp only
  congr 1
  apply table_rows_eq
  apply List.filter_eq_self.mpr
  intro r hr
  simpa using h i hx r hr

/-! ### String-cleaning lemmas -/

theorem dropWhile_dropWhile (p : α → Bool) (l : List α) :
    (l.dropWhile p).dropWhile p = l.dropWhile p := by
  induction l with
  | nil => rfl
  | cons a l ih =>
      by_cases hp : p a
      · rw [List.dropWhile_cons_of_pos hp]
        exact ih
      · rw [List.dropWhile_cons_of_neg hp, List.dropWhile_cons_of_neg hp]

theorem dropWhile_fix_cons {p : α → Bool} {a : α} {X : List α}
    (h : (a :: X).dropWhile p = a :: X) : p a = false := by
  by_cases hp : p a
  · rw [List.dropWhile_cons_of_pos hp] at h
    have h2 : (X.dropWhile p).length ≤ X.length :=
      (List.dropWhile_sublist p).length_le
    rw [h] at h2
    simp at h2
  · simpa using hp

/-- Two-sided whitespace stripping at the character-list level. -/
def stripChars (p : α → Bool) (l : List α) : List α :=
  ((l.dropWhile p).reverse.dropWhile p).reverse

theorem stripChars_idem (p : α → Bool) (l : List α) :
    stripChars p (stripChars p l) = stripChars p l := by
  set u := l.dropWhile p with hu
  set v := (u.reverse.dropWhile p).reverse with hv
  have hveq : stripChars p l = v := rfl
  rw [hveq]
  have hrev : v.reverse = u.reverse.dropWhile p := by
    rw [hv, List.reverse_reverse]
  have step2 : v.reverse.dropWhile p = v.reverse := by
    rw [hrev]
    exact dropWhile_dropWhile p u.reverse
  have hufix : u.dropWhile p = u := dropWhile_dropWhile p l
  have step1 : v.dropWhile p = v := by
    cases hvne : v with
    | nil => rfl
    | cons a vt =>
        have hpre : v <+: u := by
          have hsuf : v.reverse <:+ u.reverse := by
            rw [hrev]
            exact List.dropWhile_suffix p
          exact (List.reverse_suffix).mp hsuf
        obtain ⟨tail, htail⟩ := hpre
        have hu2 : u = a :: (vt ++ tail) := by
          rw [← htail, hvne]
          rfl
        have hfix2 : (a :: (vt ++ tail)).dropWhile p = a :: (vt ++ tail) := by
          rw [← hu2]
          exact hufix
        have hpa : p a = false := dropWhile_fix_cons hfix2
        exact List.dropWhile_cons_of_neg (by simp [hpa])
  show stripChars p v = v
  unfold stripChars
  rw [step1, step2, List.reverse_reverse]

theorem pyStrip_idem (s : String) : pyStrip (pyStrip s) = pyStrip s :=
  congrArg String.mk (stripChars_idem Char.isWhitespace s.data)

theorem toNumericCell_idem (x : Cell) :
    toNumericCell (toNumericCell x) = toNumericCell x := by
  cases x with
  | text s =>
      simp only [toNumericCell]
      cases parseNumber s <;> rfl
  | num q => rfl
  | missing => rfl

theorem stripCell_idem (x : Cell) : stripCell (stripCell x) = stripCell x :=
  congrArg Cell.text (pyStrip_idem (cellToStr x))

/-! ### Preprocessor structure and idempotence -/

theorem dropnaCol_ok_colIdx {t u : Table} {c : String}
    (h : dropnaCol t c = Except.ok u) : ∃ i, colIdx t c = some i := by
  unfold dropnaCol at h
  cases hx : colIdx t c with
  | none => rw [hx] at h; cases h
  | some i => exact ⟨i, rfl⟩

theorem sellerPreSort_eq (t : Table) :
    sellerPreSort t = (dropnaCol t "关键词").map (fun t1 =>
      sellerAsinCols.foldl (fun a c => coerceCol a c stripCell)
        (sellerPercentageCols.foldl (fun a c => coerceCol a c toNumericCell)
          (sellerNumericCols.foldl (fun a c => coerceCol a c toNumericCell) t1))) := by
  unfold sellerPreSort
  cases dropnaCol t "关键词" <;> rfl

theorem sifPreSort_eq (t : Table) :
    sifPreSort t = (dropnaCol t "关键词").map (fun t1 =>
      let t2 := sifNumericCols.foldl (fun a c => coerceCol a c toNumericCell) t1
      (t2.cols.filter isSifPercentCol).foldl (fun a c => coerceCol a c percentCell) t2) := by
  unfold sifPreSort
  cases dropnaCol t "关键词" <;> rfl

theorem sortByColDesc_some {u : Table} {c : String} {i : Nat}
    (hx : colIdx u c = some i) :
    sortByColDesc u c =
      { u with rows := sortRowsDesc (fun r => sortKey (cellAt r i)) u.rows } := by
  unfold sortByColDesc
  rw [hx]

theorem sortByColDesc_none {u : Table} {c : String} (hx : colIdx u c = none) :
    sortByColDesc u c = u := by
  unfold sortByColDesc
  rw [hx]

theorem sortByColDesc_idem (u : Table) (c : String) :
    sortByColDesc (sortByColDesc u c) c = sortByColDesc u c := by
  cases hx : colIdx u c with
  | none => rw [sortByColDesc_none hx, sortByColDesc_none hx]
  | some i =>
      have h2 : colIdx (sortByColDesc u c) c = some i := by
        rw [colIdx_eq_of_cols_eq (sortByColDesc_cols u c) c]
        exact hx
      rw [sortByColDesc_some h2, sortByColDesc_some hx]
      apply table_rows_eq
      exact sortRowsDesc_idem _ _

/-- State of a table after the pre-sort stages of `preprocess_seller_elf`:
non-missing keywords and cleaning-fixed designated columns. -/
def SellerInv (v : Table) : Prop :=
  ColNonMissing v "关键词" ∧
  (∀ c ∈ sellerNumericCols, FixedCol v c toNumericCell) ∧
  (∀ c ∈ sellerPercentageCols, FixedCol v c toNumericCell) ∧
  (∀ c ∈ sellerAsinCols, FixedCol v c stripCell)

theorem sellerPreSort_ok_inv {t u : Table} (h : sellerPreSort t = Except.ok u) :
    SellerInv u ∧ u.cols = t.cols ∧ ∃ i, colIdx t "关键词" = some i := by
  rw [sellerPreSort_eq] at h
  cases hd : dropnaCol t "关键词" with
  | error e => rw [hd] at h; cases h
  | ok t1 =>
      rw [hd] at h
      simp only [Except.map] at h
      have hu : u =
          sellerAsinCols.foldl (fun a c => coerceCol a c stripCell)
            (sellerPercentageCols.foldl (fun a c => coerceCol a c toNumericCell)
              (sellerNumericCols.foldl (fun a c => coerceCol a c toNumericCell) t1)) :=
        (Except.ok.inj h).symm
      have hnm1 : ColNonMissing t1 "关键词" := dropnaCol_nonMissing hd
      have hdisj1 : ∀ d ∈ sellerNumericCols, d ≠ "关键词" := by decide
      have hdisj2 : ∀ d ∈ sellerPercentageCols, d ≠ "关键词" := by decide
      have hdisj3 : ∀ d ∈ sellerAsinCols, d ≠ "关键词" := by decide
      have hdisjNA : ∀ c ∈ sellerNumericCols, ∀ d ∈ sellerAsinCols, d ≠ c := by decide
      have hdisjPA : ∀ c ∈ sellerPercentageCols, ∀ d ∈ sellerAsinCols, d ≠ c := by decide
      rw [hu]
      refine ⟨⟨?_, ?_, ?_, ?_⟩, ?_, ?_⟩
      · exact foldl_coerceCol_preserves_nonMissing hdisj3
          (foldl_coerceCol_preserves_nonMissing hdisj2
            (foldl_coerceCol_preserves_nonMissing hdisj1 hnm1))
      · intro c hc
        exact foldl_coerceCol_preserves_fixed_ne toNumericCell_idem (hdisjNA c hc)
          (foldl_coerceCol_preserves_fixed_same toNumericCell_idem
            (foldl_coerceCol_establishes toNumericCell_idem hc))
      · intro c hc
        exact foldl_coerceCol_preserves_fixed_ne toNumericCell_idem (hdisjPA c hc)
          (foldl_coerceCol_establishes toNumericCell_idem hc)
      · intro c hc
        exact foldl_coerceCol_establishes stripCell_idem hc
      · rw [foldl_coerceCol_cols, foldl_coerceCol_cols, foldl_coerceCol_cols]
        exact dropnaCol_cols hd
      · exact dropnaCol_ok_colIdx hd

theorem sortByColDesc_preserves_sellerInv {v : Table} {c : String}
    (h : SellerInv v) : SellerInv (sortByColDesc v c) := by
  obtain ⟨h1, h2, h3, h4⟩ := h
  exact ⟨sortByColDesc_preserves_nonMissing h1,
    fun d hd => sortByColDesc_preserves_fixed (h2 d hd),
    fun d hd => sortByColDesc_preserves_fixed (h3 d hd),
    fun d hd => sortByColDesc_preserves_fixed (h4 d hd)⟩

theorem sellerPreSort_of_inv {v : Table} {i : Nat}
    (hi : colIdx v "关键词" = some i) (h : SellerInv v) :
    sellerPreSort v = Except.ok v := by
  obtain ⟨h1, h2, h3, h4⟩ := h
  rw [sellerPreSort_eq, dropnaCol_eq_self hi h1]
  have e1 : sellerNumericCols.foldl (fun a c => coerceCol a c toNumericCell) v = v :=
    foldl_coerceCol_eq_self h2
  rw [Except.map, e1, foldl_coerceCol_eq_self h3, foldl_coerceCol_eq_self h4]

/-- `preprocess_seller_elf` is idempotent: its output is a fixed point. -/
theorem preprocess_seller_elf_idem {t t' : Table}
    (h : preprocess_seller_elf t = Except.ok t') :
    preprocess_seller_elf t' = Except.ok t' := by
  unfold preprocess_seller_elf at h ⊢
  cases hp : sellerPreSort t with
  | error e => rw [hp] at h; cases h
  | ok u =>
      rw [hp] at h
      simp only [Except.map] at h
      have ht' : t' = sortByColDesc u "月搜索量" := (Except.ok.inj h).symm
      obtain ⟨hinv, hcols, i, hi⟩ := sellerPreSort_ok_inv hp
      have hinv' : SellerInv t' := ht' ▸ sortByColDesc_preserves_sellerInv hinv
      have hi' : colIdx t' "关键词" = some i := by
        rw [ht', colIdx_eq_of_cols_eq (sortByColDesc_cols u "月搜索量") _,
          colIdx_eq_of_cols_eq hcols _]
        exact hi
      rw [sellerPreSort_of_inv hi' hinv']
      rw [Except.map, ht', sortByColDesc_idem]

/-- State of a table after the pre-sort stages of `preprocess_sif` when no
per-competitor percentage column is present. -/
def SifInv (v : Table) : Prop :=
  ColNonMissing v "关键词" ∧
  (∀ c ∈ sifNumericCols, FixedCol v c toNumericCell)

theorem sifPreSort_ok_inv {t u : Table}
    (hNoPct : t.cols.filter isSifPercentCol = [])
    (h : sifPreSort t = Except.ok u) :
    SifInv u ∧ u.cols = t.cols ∧ ∃ i, colIdx t "关键词" = some i := by
  rw [sifPreSort_eq] at h
  cases hd : dropnaCol t "关键词" with
  | error e => rw [hd] at h; cases h
  | ok t1 =>
      rw [hd] at h
      simp only [Except.map] at h
      have hc2 : (sifNumericCols.foldl (fun a c => coerceCol a c toNumericCell) t1).cols
          = t.cols := by
        rw [foldl_coerceCol_cols]
        exact dropnaCol_cols hd
      have hfilter :
          ((sifNumericCols.foldl (fun a c => coerceCol a c toNumericCell) t1).cols.filter
            isSifPercentCol) = [] := by
        rw [hc2, hNoPct]
      rw [hfilter] at h
      have hu : u = sifNumericCols.foldl (fun a c => coerceCol a c toNumericCell) t1 :=
        (Except.ok.inj h).symm
      have hnm1 : ColNonMissing t1 "关键词" := dropnaCol_nonMissing hd
      have hdisj1 : ∀ d ∈ sifNumericCols, d ≠ "关键词" := by decide
      rw [hu]
      refine ⟨⟨?_, ?_⟩, hc2, dropnaCol_ok_colIdx hd⟩
      · exact foldl_coerceCol_preserves_nonMissing hdisj1 hnm1
      · intro c hc
        exact foldl_coerceCol_establishes toNumericCell_idem hc

theorem sifPreSort_of_inv {v : Table} {i : Nat}
    (hNoPct : v.cols.filter isSifPercentCol = [])
    (hi : colIdx v "关键词" = some i) (h : SifInv v) :
    sifPreSort v = Except.ok v := by
  obtain ⟨h1, h2⟩ := h
  rw [sifPreSort_eq, dropnaCol_eq_self hi h1]
  have e1 : sifNumericCols.foldl (fun a c => coerceCol a c toNumericCell) v = v :=
    foldl_coerceCol_eq_self h2
  rw [Except.map]
  simp only [e1, hNoPct, List.foldl_nil]

/-- `preprocess_sif` is idempotent on tables without per-competitor
percentage columns (and, shown separately, not idempotent in general). -/
theorem preprocess_sif_idem_nopct {t t' : Table}
    (hNoPct : t.cols.filter isSifPercentCol = [])
    (h : preprocess_sif t = Except.ok t') :
    preprocess_sif t' = Except.ok t' := by
  unfold preprocess_sif at h ⊢
  cases hp : sifPreSort t with
  | error e => rw [hp] at h; cases h
  | ok u =>
      rw [hp] at h
      simp only [Except.map] at h
      have ht' : t' = sortByColDesc u "周搜索量" := (Except.ok.inj h).symm
      obtain ⟨hinv, hcols, i, hi⟩ := sifPreSort_ok_inv hNoPct hp
      have hcols' : t'.cols = t.cols := by
        rw [ht', sortByColDesc_cols, hcols]
      have hinv' : SifInv t' := by
        obtain ⟨h1, h2⟩ := hinv
        exact ht' ▸ ⟨sortByColDesc_preserves_nonMissing h1,
          fun d hd => sortByColDesc_preserves_fixed (h2 d hd)⟩
      have hi' : colIdx t' "关键词" = some i := by
        rw [colIdx_eq_of_cols_eq hcols' _]
        exact hi
      have hNoPct' : t'.cols.filter isSifPercentCol = [] := by
        rw [hcols', hNoPct]
      rw [sifPreSort_of_inv hNoPct' hi' hinv']
      rw [Except.map, ht', sortByColDesc_idem]

/-! ### Key-column invariants of the normalizers -/

theorem sifPreSort_keyOk {t u : Table} (h : sifPreSort t = Except.ok u) :
    ColNonMissing u "关键词" ∧ u.cols = t.cols := by
  rw [sifPreSort_eq] at h
  cases hd : dropnaCol t "关键词" with
  | error e => rw [hd] at h; cases h
  | ok t1 =>
      rw [hd] at h
      simp only [Except.map] at h
      have hu : u =
          ((sifNumericCols.foldl (fun a c => coerceCol a c toNumericCell) t1).cols.filter
            isSifPercentCol).foldl (fun a c => coerceCol a c percentCell)
            (sifNumericCols.foldl (fun a c => coerceCol a c toNumericCell) t1) :=
        (Except.ok.inj h).symm
      have hnm1 : ColNonMissing t1 "关键词" := dropnaCol_nonMissing hd
      have hdisj1 : ∀ d ∈ sifNumericCols, d ≠ "关键词" := by decide
      have hdisj2 : ∀ d ∈ ((sifNumericCols.foldl (fun a c => coerceCol a c toNumericCell)
          t1).cols.filter isSifPercentCol), d ≠ "关键词" := by
        intro d hd2 heq
        have hpct : isSifPercentCol d = true := (List.mem_filter.mp hd2).2
        rw [heq] at hpct
        exact absurd hpct (by decide)
      rw [hu]
      constructor
      · exact foldl_coerceCol_preserves_nonMissing hdisj2
          (foldl_coerceCol_preserves_nonMissing hdisj1 hnm1)
      · rw [foldl_coerceCol_cols, foldl_coerceCol_cols]
        exact dropnaCol_cols hd

theorem sellerPreSort_keyOk {t u : Table} (h : sellerPreSort t = Except.ok u) :
    ColNonMissing u "关键词" ∧ u.cols = t.cols := by
  obtain ⟨⟨h1, -, -, -⟩, hcols, -⟩ := sellerPreSort_ok_inv h
  exact ⟨h1, hcols⟩

theorem preprocess_seller_elf_keyOk {t t' : Table}
    (h : preprocess_seller_elf t = Except.ok t') :
    ColNonMissing t' "关键词" ∧ t'.cols = t.cols ∧
      ∃ i, colIdx t' "关键词" = some i := by
  unfold preprocess_seller_elf at h
  cases hp : sellerPreSort t with
  | error e => rw [hp] at h; cases h
  | ok u =>
      rw [hp] at h
      simp only [Except.map] at h
      have ht' : t' = sortByColDesc u "月搜索量" := (Except.ok.inj h).symm
      obtain ⟨hnm, hcols⟩ := sellerPreSort_keyOk hp
      obtain ⟨-, -, i, hi⟩ := sellerPreSort_ok_inv hp
      have hc' : t'.cols = t.cols := by
        rw [ht', sortByColDesc_cols, hcols]
      refine ⟨ht' ▸ sortByColDesc_preserves_nonMissing hnm, hc', i, ?_⟩
      rw [colIdx_eq_of_cols_eq hc' _]
      exact hi

theorem preprocess_sif_keyOk {t t' : Table}
    (h : preprocess_sif t = Except.ok t') :
    ColNonMissing t' "关键词" ∧ t'.cols = t.cols ∧
      ∃ i, colIdx t' "关键词" = some i := by
  unfold preprocess_sif at h
  cases hp : sifPreSort t with
  | error e => rw [hp] at h; cases h
  | ok u =>
      rw [hp] at h
      simp only [Except.map] at h
      have ht' : t' = sortByColDesc u "周搜索量" := (Except.ok.inj h).symm
      obtain ⟨hnm, hcols⟩ := sifPreSort_keyOk hp
      rw [sifPreSort_eq] at hp
      cases hd : dropnaCol t "关键词" with
      | error e => rw [hd] at hp; cases hp
      | ok t1 =>
          obtain ⟨i, hi⟩ := dropnaCol_ok_colIdx hd
          have hc' : t'.cols = t.cols := by
            rw [ht', sortByColDesc_cols, hcols]
          refine ⟨ht' ▸ sortByColDesc_preserves_nonMissing hnm, hc', i, ?_⟩
          rw [colIdx_eq_of_cols_eq hc' _]
          exact hi

/-! ### Concrete tables for scenarios, counterexamples and witnesses -/

/-- A SellerMetrics-shaped table that is a fixed point of its normalizer. -/
def sellerWitnessT : Table :=
  { cols := ["关键词", "月搜索量", "月购买量", "购买率", "流量占比", "前十ASIN"]
    rows := [[Cell.text "a", Cell.num 100, Cell.num 10, Cell.num (1 / 20),
              Cell.num (1 / 10), Cell.text "B1,B2"]] }

/-- A SearchFrequency-shaped table (no per-competitor percentage columns)
that is a fixed point of its normalizer. -/
def sifWitnessT : Table :=
  { cols := ["关键词", "周搜索量", "周搜索量排名", "在售商品数"]
    rows := [[Cell.text "a", Cell.num 50, Cell.num 1, Cell.num 5]] }

/-- A SearchFrequency table with one per-competitor percentage column. -/
def sifPctTable : Table :=
  { cols := ["关键词", "B0TEST"]
    rows := [[Cell.text "slippers", Cell.text "3.4512%"]] }

/-- `sifPctTable` after one application of `preprocess_sif`: the percentage
cell has become the fraction 0.034512. -/
def sifPctTableOnce : Table :=
  { cols := ["关键词", "B0TEST"]
    rows := [[Cell.text "slippers", Cell.num (2157 / 62500)]] }

/-- A table whose single row carries an empty-string (not missing) join
key. -/
def emptyKeyTable : Table :=
  { cols := ["关键词"], rows := [[Cell.text ""]] }

/-! ### Claim C3 — idempotence of the normalizers -/

/-- C3, counterexample: the claim that normalizing an already-normalized
table changes nothing fails for the SearchFrequency normalizer.  On a table
with the percentage column `B0TEST` holding `"3.4512%"`, one application
yields the fraction `0.034512`, but a second application stringifies that
float, strips no `%`, and divides by 100 again, yielding `0.00034512` — the
output is not a fixed point. -/
theorem claim_C3_counterexample :
    preprocess_sif sifPctTable = Except.ok sifPctTableOnce ∧
    preprocess_sif sifPctTableOnce =
      Except.ok { cols := ["关键词", "B0TEST"]
                  rows := [[Cell.text "slippers", Cell.num (2157 / 6250000)]] } ∧
    preprocess_sif sifPctTableOnce ≠ Except.ok sifPctTableOnce := by
  refine ⟨by decide, by decide, by decide⟩

/-- C3, amended: the SellerMetrics normalizer is idempotent — its output is
always a fixed point; the SearchFrequency normalizer is idempotent only on
tables with no per-competitor percentage column (columns starting `B0`
without the classification marker), because each application divides those
columns by a further factor of 100. -/
theorem claim_C3_amended :
    (∀ t t' : Table, preprocess_seller_elf t = Except.ok t' →
      preprocess_seller_elf t' = Except.ok t') ∧
    (∀ t t' : Table, t.cols.filter isSifPercentCol = [] →
      preprocess_sif t = Except.ok t' → preprocess_sif t' = Except.ok t') :=
  ⟨fun _ _ h => preprocess_seller_elf_idem h,
   fun _ _ hn h => preprocess_sif_idem_nopct hn h⟩

/-- C3, witness: the amended idempotence applied to concrete fixed-point
tables of both profiles. -/
theorem claim_C3_amended_witness :
    preprocess_seller_elf sellerWitnessT = Except.ok sellerWitnessT ∧
    preprocess_sif sifWitnessT = Except.ok sifWitnessT :=
  ⟨claim_C3_amended.1 sellerWitnessT sellerWitnessT (by decide),
   claim_C3_amended.2 sifWitnessT sifWitnessT (by decide) (by decide)⟩

/-! ### Claim C4 — join-key rows -/

/-- C4, counterexample: a row whose join-key cell is the empty string (a
present text cell, not a missing one) survives both `dropna` and the rest
of the SellerMetrics normalizer, so "empty … is absent from the output" is
false: only missing keys are dropped. -/
theorem claim_C4_counterexample :
    preprocess_seller_elf emptyKeyTable = Except.ok emptyKeyTable ∧
    [Cell.text ""] ∈ emptyKeyTable.rows ∧
    cellByName emptyKeyTable [Cell.text ""] "关键词" = Cell.text "" := by
  refine ⟨by decide, by decide, by decide⟩

/-- C4, amended: for both normalizers, every row whose join-key cell is
missing is dropped, so the join-key column of every normalized table is
non-missing on every row (empty-string keys, however, are retained; blank
spreadsheet cells load as missing, so they are dropped). -/
theorem claim_C4_amended :
    (∀ t t' : Table, preprocess_seller_elf t = Except.ok t' →
      ∃ i, colIdx t' "关键词" = some i ∧
        ∀ r ∈ t'.rows, cellAt r i ≠ Cell.missing) ∧
    (∀ t t' : Table, preprocess_sif t = Except.ok t' →
      ∃ i, colIdx t' "关键词" = some i ∧
        ∀ r ∈ t'.rows, cellAt r i ≠ Cell.missing) := by
  constructor
  · intro t t' h
    obtain ⟨hnm, -, i, hi⟩ := preprocess_seller_elf_keyOk h
    exact ⟨i, hi, hnm i hi⟩
  · intro t t' h
    obtain ⟨hnm, -, i, hi⟩ := preprocess_sif_keyOk h
    exact ⟨i, hi, hnm i hi⟩

/-- C4, witness: the non-missing-key invariant applied to concrete
normalized tables of both profiles. -/
theorem claim_C4_amended_witness :
    (∃ i, colIdx sellerWitnessT "关键词" = some i ∧
      ∀ r ∈ sellerWitnessT.rows, cellAt r i ≠ Cell.missing) ∧
    (∃ i, colIdx sifWitnessT "关键词" = some i ∧
      ∀ r ∈ sifWitnessT.rows, cellAt r i ≠ Cell.missing) :=
  ⟨claim_C4_amended.1 sellerWitnessT sellerWitnessT (by decide),
   claim_C4_amended.2 sifWitnessT sifWitnessT (by decide)⟩

/-! ### Claim C7 — the sort stage -/

/-- Behaviour of the final sort stage of a normalizer over its designated
volume column: when the column is present the output rows are
non-increasing in its key (missing keys ordered last), and rows with any
fixed key value keep their original relative order (stability); when the
column is absent the stage is the identity — skipped without error. -/
def SortStageSpec (vol : String) (u : Table) : Prop :=
  (∀ i, colIdx u vol = some i →
    (sortByColDesc u vol).rows.Pairwise
      (fun r1 r2 => keyGe (sortKey (cellAt r1 i)) (sortKey (cellAt r2 i))) ∧
    ∀ k, (sortByColDesc u vol).rows.filter (fun r => sortKey (cellAt r i) = k)
        = u.rows.filter (fun r => sortKey (cellAt r i) = k)) ∧
  (colIdx u vol = none → sortByColDesc u vol = u)

theorem sortStageSpec_holds (vol : String) (u : Table) : SortStageSpec vol u := by
  constructor
  · intro i hi
    rw [sortByColDesc_some hi]
    exact ⟨pairwise_sortRowsDesc _ _, fun k => sortRowsDesc_filter _ _ _⟩
  · exact sortByColDesc_none

/-- C7: each normalizer ends with a stable descending sort on its
profile-designated volume column (monthly for SellerMetrics, weekly for
SearchFrequency): the normalized output is the pre-sort table sorted
descending by that column with missing keys last, the volume column is
non-increasing across output rows, equal-volume rows keep their original
relative order, and when the column is absent the sort is skipped without
error.  The underlying pandas argsort is modelled as stable (see the module
comment). -/
theorem claim_C7 :
    (∀ t u : Table, sellerPreSort t = Except.ok u →
      preprocess_seller_elf t = Except.ok (sortByColDesc u "月搜索量") ∧
      SortStageSpec "月搜索量" u) ∧
    (∀ t u : Table, sifPreSort t = Except.ok u →
      preprocess_sif t = Except.ok (sortByColDesc u "周搜索量") ∧
      SortStageSpec "周搜索量" u) := by
  constructor
  · intro t u h
    refine ⟨?_, sortStageSpec_holds _ u⟩
    unfold preprocess_seller_elf
    rw [h]
    rfl
  · intro t u h
    refine ⟨?_, sortStageSpec_holds _ u⟩
    unfold preprocess_sif
    rw [h]
    rfl

/-- C7, witness: the sort-stage behaviour applied to concrete pre-sorted
tables of both profiles. -/
theorem claim_C7_witness :
    (preprocess_seller_elf sellerWitnessT =
        Except.ok (sortByColDesc sellerWitnessT "月搜索量") ∧
      SortStageSpec "月搜索量" sellerWitnessT) ∧
    (preprocess_sif sifWitnessT =
        Except.ok (sortByColDesc sifWitnessT "周搜索量") ∧
      SortStageSpec "周搜索量" sifWitnessT) :=
  ⟨claim_C7.1 sellerWitnessT sellerWitnessT (by decide),
   claim_C7.2 sifWitnessT sifWitnessT (by decide)⟩

/-! ### Scorer structure: tables extended by derived columns -/

theorem exceptBind_ok {α β : Type} (a : α) (f : α → Except String β) :
    (Except.ok a >>= f) = f a := rfl

theorem getColIdxE_ok {t : Table} {c : String} {i : Nat}
    (h : colIdx t c = some i) : getColIdxE t c = Except.ok i := by
  unfold getColIdxE
  rw [h]

theorem checkNoTextAt_ok {t : Table} {i : Nat}
    (h : colAllNumOrMissing t i = true) : checkNoTextAt t i = Except.ok () := by
  unfold checkNoTextAt
  rw [h]
  rfl

/-- `u` is `t` extended on the right by the derived columns `extra`, whose
cells are computed row-wise by `e`. -/
def Ext (t : Table) (extra : List String) (e : List Cell → List Cell) (u : Table) : Prop :=
  u.cols = t.cols ++ extra ∧ u.rows = t.rows.map (fun r => r ++ e r) ∧
    ∀ r, (e r).length = extra.length

theorem ext_refl (t : Table) : Ext t [] (fun _ => []) t := by
  refine ⟨by simp, ?_, by simp⟩
  simp

theorem ext_congr {t u : Table} {extra : List String}
    {e e' : List Cell → List Cell} (hx : Ext t extra e u)
    (he : ∀ r, e r = e' r) : Ext t extra e' u := by
  obtain ⟨h1, h2, h3⟩ := hx
  refine ⟨h1, ?_, fun r => by rw [← he r]; exact h3 r⟩
  rw [h2]
  exact List.map_congr_left (fun r _ => by rw [he r])

theorem rect_row_len {t : Table} (hrect : t.rect = true) {r : List Cell}
    (hr : r ∈ t.rows) : r.length = t.cols.length := by
  have := (List.all_eq_true.mp hrect) r hr
  simpa using this

theorem ext_colIdx {t u : Table} {extra : List String} {e : List Cell → List Cell}
    {c : String} {i : Nat} (hx : Ext t extra e u) (hi : colIdx t c = some i) :
    colIdx u c = some i := by
  unfold colIdx at hi ⊢
  rw [hx.1]
  exact findIdx?_append_left hi

theorem ext_colIdx_none {t u : Table} {extra : List String}
    {e : List Cell → List Cell} {c : String} (hx : Ext t extra e u)
    (hc : c ∉ t.cols ++ extra) : colIdx u c = none := by
  rw [colIdx_eq_none_iff, hx.1]
  exact hc

theorem ext_colCells {t u : Table} {extra : List String}
    {e : List Cell → List Cell} {i : Nat} (hx : Ext t extra e u)
    (hrect : t.rect = true) (hi : i < t.cols.length) :
    colCells u i = colCells t i := by
  unfold colCells
  rw [hx.2.1, List.map_map]
  refine List.map_congr_left (fun r hr => ?_)
  show cellAt (r ++ e r) i = cellAt r i
  exact cellAt_append_lt (by rw [rect_row_len hrect hr]; exact hi)

theorem colAllNumOrMissing_eq_colCells (t : Table) (i : Nat) :
    colAllNumOrMissing t i =
      (colCells t i).all (fun cl =>
        match cl with
        | Cell.text _ => false
        | _ => true) := by
  unfold colAllNumOrMissing colCells
  induction t.rows with
  | nil => rfl
  | cons r rs ih => simp only [List.map_cons, List.all_cons, ih]

theorem ext_colAllNumOrMissing {t u : Table} {extra : List String}
    {e : List Cell → List Cell} {i : Nat} (hx : Ext t extra e u)
    (hrect : t.rect = true) (hi : i < t.cols.length) :
    colAllNumOrMissing u i = colAllNumOrMissing t i := by
  rw [colAllNumOrMissing_eq_colCells, colAllNumOrMissing_eq_colCells,
    ext_colCells hx hrect hi]

theorem colIdx_append_self {cs : List String} {cn : String}
    {rows' : List (List Cell)} (h : cn ∉ cs) :
    colIdx { cols := cs ++ [cn], rows := rows' } cn = some cs.length := by
  unfold colIdx
  have hnone : cs.findIdx? (fun x => x = cn) = none := by
    rw [List.findIdx?_eq_none_iff]
    intro a ha
    by_cases hac : a = cn
    · exact absurd (hac ▸ ha) h
    · simpa using hac
  show (cs ++ [cn]).findIdx? (fun x => x = cn) = some cs.length
  rw [findIdx?_append_none hnone]
  simp [List.findIdx?_cons]

/-- Effect of one plain `_norm` assignment on an extended table. -/
theorem stepA_ext {t u : Table} {extra : List String} {e : List Cell → List Cell}
    {c : String} {i : Nat}
    (hx : Ext t extra e u) (hrect : t.rect = true)
    (hi : colIdx t c = some i)
    (hfresh : (c ++ "_norm") ∉ t.cols ++ extra)
    (htext : colAllNumOrMissing t i = true) :
    ∃ u', stepA u c = Except.ok u' ∧
      Ext t (extra ++ [c ++ "_norm"])
        (fun r => e r ++ [normACell (maxOfCells (colCells t i)) (cellAt r i)]) u' := by
  have hilen : i < t.cols.length := findIdx?_lt_length hi
  have hiu : colIdx u c = some i := ext_colIdx hx hi
  have htu : colAllNumOrMissing u i = true := by
    rw [ext_colAllNumOrMissing hx hrect hilen]
    exact htext
  have hfu : colIdx u (c ++ "_norm") = none := ext_colIdx_none hx hfresh
  refine ⟨assignCol u (c ++ "_norm")
    (fun r => normACell (maxOfCells (colCells u i)) (cellAt r i)), ?_, ?_, ?_, ?_⟩
  · simp only [stepA, getColIdxE_ok hiu, checkNoTextAt_ok htu, exceptBind_ok]
  · show (assignCol u (c ++ "_norm") _).cols = _
    unfold assignCol
    rw [hfu, hx.1, List.append_assoc]
  · show (assignCol u (c ++ "_norm") _).rows = _
    unfold assignCol
    rw [hfu]
    show u.rows.map _ = _
    rw [hx.2.1, List.map_map]
    refine List.map_congr_left (fun r hr => ?_)
    show (r ++ e r) ++ [normACell (maxOfCells (colCells u i)) (cellAt (r ++ e r) i)]
        = r ++ (e r ++ [normACell (maxOfCells (colCells t i)) (cellAt r i)])
    rw [ext_colCells hx hrect hilen,
      cellAt_append_lt (by rw [rect_row_len hrect hr]; exact hilen),
      List.append_assoc]
  · intro r
    rw [List.length_append, List.length_append, hx.2.2 r]
    rfl

/-- Effect of one fillna-style `_norm` assignment on an extended table. -/
theorem stepB_ext {t u : Table} {extra : List String} {e : List Cell → List Cell}
    {c : String} {i : Nat}
    (hx : Ext t extra e u) (hrect : t.rect = true)
    (hi : colIdx t c = some i)
    (hfresh : (c ++ "_norm") ∉ t.cols ++ extra)
    (htext : colAllNumOrMissing t i = true) :
    ∃ u', stepB u c = Except.ok u' ∧
      Ext t (extra ++ [c ++ "_norm"])
        (fun r => e r ++ [normBCell (maxOfCells ((colCells t i).map fillnaZero))
          (fillnaZero (cellAt r i))]) u' := by
  have hilen : i < t.cols.length := findIdx?_lt_length hi
  have hiu : colIdx u c = some i := ext_colIdx hx hi
  have htu : colAllNumOrMissing u i = true := by
    rw [ext_colAllNumOrMissing hx hrect hilen]
    exact htext
  have hfu : colIdx u (c ++ "_norm") = none := ext_colIdx_none hx hfresh
  have hfreshu : (c ++ "_norm") ∉ u.cols := by
    rw [hx.1]
    exact hfresh
  -- the filled column assignment appends on the right
  have hassign1 : assignCol u (c ++ "_norm") (fun r => fillnaZero (cellAt r i)) =
      { cols := u.cols ++ [c ++ "_norm"]
        rows := u.rows.map (fun r => r ++ [fillnaZero (cellAt r i)]) } := by
    unfold assignCol
    rw [hfu]
  have hx1 : Ext t (extra ++ [c ++ "_norm"])
      (fun r => e r ++ [fillnaZero (cellAt r i)])
      { cols := u.cols ++ [c ++ "_norm"]
        rows := u.rows.map (fun r => r ++ [fillnaZero (cellAt r i)]) } := by
    refine ⟨?_, ?_, ?_⟩
    · show u.cols ++ [c ++ "_norm"] = t.cols ++ (extra ++ [c ++ "_norm"])
      rw [hx.1, List.append_assoc]
    · show u.rows.map _ = _
      rw [hx.2.1, List.map_map]
      refine List.map_congr_left (fun r hr => ?_)
      show (r ++ e r) ++ [fillnaZero (cellAt (r ++ e r) i)]
          = r ++ (e r ++ [fillnaZero (cellAt r i)])
      rw [cellAt_append_lt (by rw [rect_row_len hrect hr]; exact hilen),
        List.append_assoc]
    · intro r
      rw [List.length_append, List.length_append, hx.2.2 r]
      rfl
  set u1 : Table :=
      { cols := u.cols ++ [c ++ "_norm"]
        rows := u.rows.map (fun r => r ++ [fillnaZero (cellAt r i)]) } with hu1def
  have hj : colIdx u1 (c ++ "_norm") = some u.cols.length :=
    colIdx_append_self hfreshu
  -- each row of u1 ends in its filled cell, sitting at position u.cols.length
  have hrowlen : ∀ r ∈ t.rows, (r ++ e r).length = u.cols.length := by
    intro r hr
    rw [List.length_append, rect_row_len hrect hr, hx.2.2 r, hx.1,
      List.length_append]
  have hcellj : ∀ r ∈ t.rows,
      cellAt ((r ++ e r) ++ [fillnaZero (cellAt r i)]) u.cols.length
        = fillnaZero (cellAt r i) := by
    intro r hr
    rw [cellAt_append_len (hrowlen r hr)]
    rfl
  have hrows1 : u1.rows = t.rows.map
      (fun r => (r ++ e r) ++ [fillnaZero (cellAt r i)]) := by
    rw [hx1.2.1]
    exact List.map_congr_left (fun r _ => (List.append_assoc r (e r) _).symm)
  have hcolCells1 : colCells u1 u.cols.length = (colCells t i).map fillnaZero := by
    unfold colCells
    rw [hrows1, List.map_map, List.map_map]
    refine List.map_congr_left (fun r hr => ?_)
    show cellAt ((r ++ e r) ++ [fillnaZero (cellAt r i)]) u.cols.length
        = fillnaZero (cellAt r i)
    exact hcellj r hr
  -- the division-in-place (when it happens) rewrites the filled cell
  have hdiv : ∀ mq : ℚ,
      assignCol u1 (c ++ "_norm") (fun r => divCell (cellAt r u.cols.length) mq) =
      { cols := u1.cols
        rows := t.rows.map (fun r =>
          (r ++ e r) ++ [divCell (fillnaZero (cellAt r i)) mq]) } := by
    intro mq
    unfold assignCol
    rw [hj]
    show ({ u1 with rows := u1.rows.map _ } : Table) = _
    have : u1.rows.map (fun r => r.set u.cols.length
        (divCell (cellAt r u.cols.length) mq)) =
        t.rows.map (fun r => (r ++ e r) ++ [divCell (fillnaZero (cellAt r i)) mq]) := by
      rw [hrows1, List.map_map]
      refine List.map_congr_left (fun r hr => ?_)
      show ((r ++ e r) ++ [fillnaZero (cellAt r i)]).set u.cols.length
          (divCell (cellAt ((r ++ e r) ++ [fillnaZero (cellAt r i)]) u.cols.length) mq)
          = (r ++ e r) ++ [divCell (fillnaZero (cellAt r i)) mq]
      rw [hcellj r hr, set_append_len (hrowlen r hr)]
      rfl
    rw [this]
  -- reduce stepB to its final match
  have hred : stepB u c =
      (match maxOfCells (colCells u1 u.cols.length) with
       | some mq =>
           if 0 < mq then
             Except.ok (assignCol u1 (c ++ "_norm")
               (fun r => divCell (cellAt r u.cols.length) mq))
           else Except.ok u1
       | none => Except.ok u1) := by
    simp only [stepB, getColIdxE_ok hiu, checkNoTextAt_ok htu, exceptBind_ok,
      hassign1, getColIdxE_ok hj]
  rw [hcolCells1] at hred
  cases hM : maxOfCells ((colCells t i).map fillnaZero) with
  | none =>
      rw [hM] at hred
      dsimp only at hred
      refine ⟨u1, hred, ext_congr hx1 (fun r => ?_)⟩
      rfl
  | some mq =>
      rw [hM] at hred
      dsimp only at hred
      by_cases hmq : 0 < mq
      · rw [if_pos hmq] at hred
        rw [hdiv mq] at hred
        refine ⟨_, hred, ?_, ?_, ?_⟩
        · show u1.cols = _
          rw [hu1def, hx.1, List.append_assoc]
        · show t.rows.map _ = t.rows.map _
          refine List.map_congr_left (fun r hr => ?_)
          simp only [normBCell]
          rw [if_pos hmq, List.append_assoc]
        · intro r
          rw [List.length_append, List.length_append, hx.2.2 r]
          rfl
      · rw [if_neg hmq] at hred
        refine ⟨u1, hred, ext_congr hx1 (fun r => ?_)⟩
        simp only [normBCell]
        rw [if_neg hmq]

/-- The five `_norm` column names followed by the score column name. -/
def normNames : List String :=
  ["月搜索量_norm", "月购买量_norm", "购买率_norm", "流量占比_norm", "周搜索量_norm"]

theorem ext_colIdx_new {t u : Table} {extra : List String}
    {e : List Cell → List Cell} {c : String} {k : Nat}
    (hx : Ext t extra e u) (hnot : c ∉ t.cols)
    (hfind : extra.findIdx? (fun x => x = c) = some k) :
    colIdx u c = some (k + t.cols.length) := by
  unfold colIdx
  rw [hx.1]
  have hnone : t.cols.findIdx? (fun x => x = c) = none := by
    rw [List.findIdx?_eq_none_iff]
    intro a ha
    by_cases hac : a = c
    · exact absurd (hac ▸ ha) hnot
    · simpa using hac
  rw [findIdx?_append_none hnone, hfind]
  rfl

/-- Effect of the `relevance_score` assignment on the fully extended
table. -/
theorem stepScore_ext {t u : Table} {a1 a2 a3 a4 a5 : List Cell → Cell}
    (hx : Ext t normNames (fun r => [a1 r, a2 r, a3 r, a4 r, a5 r]) u)
    (hrect : t.rect = true)
    (hfresh : ∀ c ∈ normNames ++ ["relevance_score"], c ∉ t.cols) :
    ∃ u', stepScore u = Except.ok u' ∧
      Ext t (normNames ++ ["relevance_score"])
        (fun r => [a1 r, a2 r, a3 r, a4 r, a5 r,
          scoreCells (a1 r) (a2 r) (a3 r) (a4 r) (a5 r)]) u' := by
  have hj1 : colIdx u "月搜索量_norm" = some (0 + t.cols.length) :=
    ext_colIdx_new hx (hfresh _ (by decide)) (by decide)
  have hj2 : colIdx u "月购买量_norm" = some (1 + t.cols.length) :=
    ext_colIdx_new hx (hfresh _ (by decide)) (by decide)
  have hj3 : colIdx u "购买率_norm" = some (2 + t.cols.length) :=
    ext_colIdx_new hx (hfresh _ (by decide)) (by decide)
  have hj4 : colIdx u "流量占比_norm" = some (3 + t.cols.length) :=
    ext_colIdx_new hx (hfresh _ (by decide)) (by decide)
  have hj5 : colIdx u "周搜索量_norm" = some (4 + t.cols.length) :=
    ext_colIdx_new hx (hfresh _ (by decide)) (by decide)
  have hfs : colIdx u "relevance_score" = none := by
    refine ext_colIdx_none hx ?_
    intro hmem
    rcases List.mem_append.mp hmem with hmem1 | hmem2
    · exact hfresh _ (by decide) hmem1
    · exact absurd hmem2 (by decide)
  have hcell : ∀ r ∈ t.rows, ∀ k : Nat,
      cellAt (r ++ [a1 r, a2 r, a3 r, a4 r, a5 r]) (k + t.cols.length)
        = cellAt [a1 r, a2 r, a3 r, a4 r, a5 r] k := by
    intro r hr k
    rw [Nat.add_comm k t.cols.length, ← rect_row_len hrect hr]
    exact cellAt_append_add
  refine ⟨assignCol u "relevance_score"
    (fun r => scoreCells (cellAt r (0 + t.cols.length)) (cellAt r (1 + t.cols.length))
      (cellAt r (2 + t.cols.length)) (cellAt r (3 + t.cols.length))
      (cellAt r (4 + t.cols.length))), ?_, ?_, ?_, ?_⟩
  · simp only [stepScore, getColIdxE_ok hj1, getColIdxE_ok hj2, getColIdxE_ok hj3,
      getColIdxE_ok hj4, getColIdxE_ok hj5, exceptBind_ok]
  · show (assignCol u "relevance_score" _).cols = _
    unfold assignCol
    rw [hfs, hx.1, List.append_assoc]
  · show (assignCol u "relevance_score" _).rows = _
    unfold assignCol
    rw [hfs]
    show u.rows.map _ = _
    rw [hx.2.1, List.map_map]
    refine List.map_congr_left (fun r hr => ?_)
    show (r ++ [a1 r, a2 r, a3 r, a4 r, a5 r]) ++
        [scoreCells (cellAt (r ++ [a1 r, a2 r, a3 r, a4 r, a5 r]) (0 + t.cols.length))
          (cellAt (r ++ [a1 r, a2 r, a3 r, a4 r, a5 r]) (1 + t.cols.length))
          (cellAt (r ++ [a1 r, a2 r, a3 r, a4 r, a5 r]) (2 + t.cols.length))
          (cellAt (r ++ [a1 r, a2 r, a3 r, a4 r, a5 r]) (3 + t.cols.length))
          (cellAt (r ++ [a1 r, a2 r, a3 r, a4 r, a5 r]) (4 + t.cols.length))] = _
    rw [hcell r hr 0, hcell r hr 1, hcell r hr 2, hcell r hr 3, hcell r hr 4]
    show (r ++ [a1 r, a2 r, a3 r, a4 r, a5 r]) ++
        [scoreCells (a1 r) (a2 r) (a3 r) (a4 r) (a5 r)] = _
    rw [List.append_assoc]
    rfl
  · intro r
    rfl

/-- Full characterisation of the scorer: on a rectangular table carrying
the five metric columns (text-free) and none of the derived column names,
`computeScores` succeeds and appends the five normalised columns and the
relevance score computed row-wise. -/
theorem computeScores_spec {t : Table} {i1 i2 i3 i4 i5 : Nat}
    (hrect : t.rect = true)
    (h1 : colIdx t "月搜索量" = some i1)
    (h2 : colIdx t "月购买量" = some i2)
    (h3 : colIdx t "购买率" = some i3)
    (h4 : colIdx t "流量占比" = some i4)
    (h5 : colIdx t "周搜索量" = some i5)
    (hfresh : ∀ c ∈ normNames ++ ["relevance_score"], c ∉ t.cols)
    (ht1 : colAllNumOrMissing t i1 = true)
    (ht2 : colAllNumOrMissing t i2 = true)
    (ht3 : colAllNumOrMissing t i3 = true)
    (ht4 : colAllNumOrMissing t i4 = true)
    (ht5 : colAllNumOrMissing t i5 = true) :
    ∃ T, computeScores t = Except.ok T ∧
      Ext t (normNames ++ ["relevance_score"])
        (fun r =>
          [normACell (maxOfCells (colCells t i1)) (cellAt r i1),
           normACell (maxOfCells (colCells t i2)) (cellAt r i2),
           normACell (maxOfCells (colCells t i3)) (cellAt r i3),
           normBCell (maxOfCells ((colCells t i4).map fillnaZero))
             (fillnaZero (cellAt r i4)),
           normBCell (maxOfCells ((colCells t i5).map fillnaZero))
             (fillnaZero (cellAt r i5)),
           scoreCells
             (normACell (maxOfCells (colCells t i1)) (cellAt r i1))
             (normACell (maxOfCells (colCells t i2)) (cellAt r i2))
             (normACell (maxOfCells (colCells t i3)) (cellAt r i3))
             (normBCell (maxOfCells ((colCells t i4).map fillnaZero))
               (fillnaZero (cellAt r i4)))
             (normBCell (maxOfCells ((colCells t i5).map fillnaZero))
               (fillnaZero (cellAt r i5)))]) T := by
  have hf1 : ("月搜索量" ++ "_norm") ∉ t.cols ++ ([] : List String) := by
    intro hmem
    rcases List.mem_append.mp hmem with hmem1 | hmem2
    · exact hfresh _ (by decide) hmem1
    · cases hmem2
  obtain ⟨u1, e1, x1⟩ := stepA_ext (ext_refl t) hrect h1 hf1 ht1
  have hf2 : ("月购买量" ++ "_norm") ∉ t.cols ++ ["月搜索量_norm"] := by
    intro hmem
    rcases List.mem_append.mp hmem with hmem1 | hmem2
    · exact hfresh _ (by decide) hmem1
    · exact absurd hmem2 (by decide)
  obtain ⟨u2, e2, x2⟩ := stepA_ext x1 hrect h2 hf2 ht2
  have hf3 : ("购买率" ++ "_norm") ∉ t.cols ++ ["月搜索量_norm", "月购买量_norm"] := by
    intro hmem
    rcases List.mem_append.mp hmem with hmem1 | hmem2
    · exact hfresh _ (by decide) hmem1
    · exact absurd hmem2 (by decide)
  obtain ⟨u3, e3, x3⟩ := stepA_ext x2 hrect h3 hf3 ht3
  have hf4 : ("流量占比" ++ "_norm") ∉
      t.cols ++ ["月搜索量_norm", "月购买量_norm", "购买率_norm"] := by
    intro hmem
    rcases List.mem_append.mp hmem with hmem1 | hmem2
    · exact hfresh _ (by decide) hmem1
    · exact absurd hmem2 (by decide)
  obtain ⟨u4, e4, x4⟩ := stepB_ext x3 hrect h4 hf4 ht4
  have hf5 : ("周搜索量" ++ "_norm") ∉
      t.cols ++ ["月搜索量_norm", "月购买量_norm", "购买率_norm", "流量占比_norm"] := by
    intro hmem
    rcases List.mem_append.mp hmem with hmem1 | hmem2
    · exact hfresh _ (by decide) hmem1
    · exact absurd hmem2 (by decide)
  obtain ⟨u5, e5, x5⟩ := stepB_ext x4 hrect h5 hf5 ht5
  obtain ⟨u6, e6, x6⟩ := stepScore_ext x5 hrect hfresh
  refine ⟨u6, ?_, x6⟩
  simp only [computeScores, e1, e2, e3, e4, e5, e6, exceptBind_ok]

/-! ### Claim C1 — the relevance score formula -/

/-- A joined-shape table whose second row has a missing monthly volume:
used to separate the code's score from the claimed score. -/
def scoreCxT : Table :=
  { cols := ["关键词", "月搜索量", "月购买量", "购买率", "流量占比", "周搜索量"]
    rows := [[Cell.text "a", Cell.num 10, Cell.num 4, Cell.num 2, Cell.num 1, Cell.num 5],
             [Cell.text "b", Cell.missing, Cell.num 4, Cell.num 2, Cell.num 1, Cell.num 5]] }

/-- C1, counterexample: the claim says a null raw value contributes a
normalized 0, which would give the second row of `scoreCxT` (missing
monthly volume, all other metrics maximal) the score
0.25 + 0.20 + 0.15 + 0.10 = 0.7; the code instead propagates the null
through `月搜索量 / max` and the row's relevance score is missing (NaN),
not 0.7. -/
theorem claim_C1_counterexample :
    (computeScores scoreCxT).map (fun T => colCellsByName T "relevance_score")
      = Except.ok [Cell.num 1, Cell.missing] ∧
    claimedScore scoreCxT
      [Cell.text "b", Cell.missing, Cell.num 4, Cell.num 2, Cell.num 1, Cell.num 5]
      = 7 / 10 ∧
    (Cell.missing : Cell) ≠ Cell.num (7 / 10) := by
  refine ⟨by decide, by decide, by decide⟩

/-- C1, amended: on every rectangular joined table carrying the five metric
columns (free of text cells there, with the derived column names fresh),
the relevance score of each row is the weighted sum
0.30/0.25/0.20/0.15/0.10 of the normalised metrics, where each normalised
value is value/max when the column maximum is positive and 0 when the
maximum is not positive or undefined — but a null raw value yields a null
(missing) normalised value for monthly volume, monthly purchases and
purchase rate (making the whole score null), and contributes 0 only for
traffic share and weekly volume, whose columns are `fillna(0)`-filled
before normalisation (`amendedScore` spells this out). -/
theorem claim_C1_amended {t : Table} {i1 i2 i3 i4 i5 : Nat}
    (hrect : t.rect = true)
    (h1 : colIdx t "月搜索量" = some i1)
    (h2 : colIdx t "月购买量" = some i2)
    (h3 : colIdx t "购买率" = some i3)
    (h4 : colIdx t "流量占比" = some i4)
    (h5 : colIdx t "周搜索量" = some i5)
    (hfresh : ∀ c ∈ normNames ++ ["relevance_score"], c ∉ t.cols)
    (ht1 : colAllNumOrMissing t i1 = true)
    (ht2 : colAllNumOrMissing t i2 = true)
    (ht3 : colAllNumOrMissing t i3 = true)
    (ht4 : colAllNumOrMissing t i4 = true)
    (ht5 : colAllNumOrMissing t i5 = true) :
    ∃ T, computeScores t = Except.ok T ∧
      colCellsByName T "relevance_score" = t.rows.map (amendedScore t) := by
  obtain ⟨T, hT, hx⟩ :=
    computeScores_spec hrect h1 h2 h3 h4 h5 hfresh ht1 ht2 ht3 ht4 ht5
  refine ⟨T, hT, ?_⟩
  have hcs : colIdx T "relevance_score" = some (5 + t.cols.length) :=
    ext_colIdx_new hx (hfresh _ (by decide)) (by decide)
  unfold colCellsByName
  rw [hcs]
  dsimp only
  unfold colCells
  rw [hx.2.1, List.map_map]
  refine List.map_congr_left (fun r hr => ?_)
  show cellAt (r ++ _) (5 + t.cols.length) = amendedScore t r
  rw [Nat.add_comm, ← rect_row_len hrect hr, cellAt_append_add]
  show scoreCells
      (normACell (maxOfCells (colCells t i1)) (cellAt r i1))
      (normACell (maxOfCells (colCells t i2)) (cellAt r i2))
      (normACell (maxOfCells (colCells t i3)) (cellAt r i3))
      (normBCell (maxOfCells ((colCells t i4).map fillnaZero)) (fillnaZero (cellAt r i4)))
      (normBCell (maxOfCells ((colCells t i5).map fillnaZero)) (fillnaZero (cellAt r i5)))
      = amendedScore t r
  simp only [amendedScore, cellByName, colCellsByName, h1, h2, h3, h4, h5]

/-- C1, witness: the amended score characterisation applied to the concrete
two-row table. -/
theorem claim_C1_amended_witness :
    ∃ T, computeScores scoreCxT = Except.ok T ∧
      colCellsByName T "relevance_score" = scoreCxT.rows.map (amendedScore scoreCxT) :=
  @claim_C1_amended scoreCxT 1 2 3 4 5
    (by decide) (by decide) (by decide) (by decide) (by decide) (by decide)
    (by decide) (by decide) (by decide) (by decide) (by decide) (by decide)

/-! ### Claim C5 — the selector (`nlargest`) -/

theorem keyLt_none (a : Option ℚ) : keyLt a none = false := by
  cases a <;> rfl

/-- In a descending-sorted list, any element of the first `n` positions is
strictly exceeded by fewer than `n` elements. -/
theorem countP_lt_of_mem_take {key : α → Option ℚ} {l : List α} {n : Nat} {r : α}
    (hp : l.Pairwise (fun a b => keyGe (key a) (key b)))
    (hr : r ∈ l.take n) :
    l.countP (fun s => keyLt (key r) (key s)) < n := by
  induction l generalizing n with
  | nil => simp at hr
  | cons x xs ih =>
      cases n with
      | zero => simp at hr
      | succ m =>
          rw [List.take_succ_cons] at hr
          rw [List.pairwise_cons] at hp
          rw [List.countP_cons]
          rcases List.mem_cons.mp hr with rfl | hr'
          · have hz : xs.countP (fun s => keyLt (key r) (key s)) = 0 := by
              rw [List.countP_eq_zero]
              intro s hs
              have hf : keyLt (key r) (key s) = false := hp.1 s hs
              simp [hf]
            rw [hz, keyLt_irrefl]
            simp
          · have hlt := ih hp.2 hr'
            have hle : (if keyLt (key r) (key x) = true then 1 else 0) ≤ 1 := by
              split <;> omega
            omega

theorem countP_eq_countP_filter {p q : α → Bool} {l : List α}
    (h : ∀ a, p a = true → q a = true) :
    l.countP p = (l.filter q).countP p := by
  rw [List.countP_filter]
  refine List.countP_congr ?_
  intro a _
  by_cases hp : p a
  · simp [hp, h a hp]
  · simp [hp]

theorem filter_filter_of_imp {p q : α → Bool} {l : List α}
    (h : ∀ a, p a = true → q a = true) :
    (l.filter q).filter p = l.filter p := by
  rw [List.filter_filter]
  refine List.filter_congr ?_
  intro a _
  by_cases hp : p a
  · simp [hp, h a hp]
  · simp [hp]

/-- A table whose second row has a missing relevance score: `nlargest`
silently drops it. -/
def nlargeCxT : Table :=
  { cols := ["关键词", "relevance_score"]
    rows := [[Cell.text "a", Cell.num 1], [Cell.text "b", Cell.missing]] }

/-- C5, counterexample: the claim says the selector's output length equals
min(N, number of available rows); on a 2-row table whose second row has a
missing (NaN) score, `nlargest(2)` returns a single row, not
min(2, 2) = 2 — rows with null scores are dropped, never selected. -/
theorem claim_C5_counterexample :
    (nlargestBy nlargeCxT 2 "relevance_score").map (fun T => T.rows.length)
      = Except.ok 1 ∧
    nlargeCxT.rows.length = 2 ∧ (1 : Nat) ≠ min 2 2 := by
  refine ⟨by decide, by decide, by decide⟩

/-- C5, amended: for every scored table and every `N`, the selector keeps
only the rows whose score cell is numeric (non-null), and among those
returns the `N` highest-scoring ones: its length is
min(N, number of rows with a non-null score), its score sequence is
non-increasing, every returned row is an input row (never fabricated),
each returned row is strictly exceeded by fewer than `N` input rows, and
equal-score rows are taken as a prefix of their original order (stable
ties).  When fewer eligible rows than `N` exist, all are returned without
error. -/
theorem claim_C5_amended {t T : Table} {n i : Nat}
    (hi : colIdx t "relevance_score" = some i)
    (h : nlargestBy t n "relevance_score" = Except.ok T) :
    T.cols = t.cols ∧
    T.rows.length = min n (t.rows.countP (fun r =>
      match cellAt r i with
      | Cell.num _ => true
      | _ => false)) ∧
    T.rows.Pairwise (fun r1 r2 => keyGe (sortKey (cellAt r1 i)) (sortKey (cellAt r2 i))) ∧
    (∀ r ∈ T.rows, r ∈ t.rows ∧ ∃ q, sortKey (cellAt r i) = some q) ∧
    (∀ r ∈ T.rows,
      t.rows.countP (fun s => keyLt (sortKey (cellAt r i)) (sortKey (cellAt s i))) < n) ∧
    (∀ q : ℚ, (T.rows.filter (fun r => sortKey (cellAt r i) = some q))
      <+: (t.rows.filter (fun r => sortKey (cellAt r i) = some q))) := by
  have hred : nlargestBy t n "relevance_score" = Except.ok
      { t with rows := (sortRowsDesc (fun r => sortKey (cellAt r i))
          (t.rows.filter (fun r =>
            match cellAt r i with
            | Cell.num _ => true
            | _ => false))).take n } := by
    simp only [nlargestBy, getColIdxE_ok hi, exceptBind_ok]
  rw [hred] at h
  have hT := (Except.ok.inj h).symm
  set key : List Cell → Option ℚ := fun r => sortKey (cellAt r i) with hkey
  set isNum : List Cell → Bool := fun r =>
    match cellAt r i with
    | Cell.num _ => true
    | _ => false with hisNum
  have hNum_of_key : ∀ r : List Cell, ∀ q : ℚ, key r = some q → isNum r = true := by
    intro r q hq
    rw [hisNum]
    show (match cellAt r i with
      | Cell.num _ => true
      | _ => false) = true
    rw [hkey] at hq
    revert hq
    show sortKey (cellAt r i) = some q → _
    cases cellAt r i <;> simp [sortKey]
  have hkey_of_num : ∀ r : List Cell, isNum r = true → ∃ q, key r = some q := by
    intro r hr
    rw [hisNum] at hr
    revert hr
    show (match cellAt r i with
      | Cell.num _ => true
      | _ => false) = true → _
    rw [hkey]
    show _ → ∃ q, sortKey (cellAt r i) = some q
    cases cellAt r i <;> simp [sortKey]
  have hgt_num : ∀ r s : List Cell, keyLt (key r) (key s) = true → isNum s = true := by
    intro r s hgt
    cases hks : key s with
    | none => rw [hks, keyLt_none] at hgt; cases hgt
    | some q => exact hNum_of_key s q hks
  refine ⟨?_, ?_, ?_, ?_, ?_, ?_⟩
  · rw [hT]
  · rw [hT]
    show ((sortRowsDesc key (t.rows.filter isNum)).take n).length = _
    rw [List.length_take, (perm_sortRowsDesc key (t.rows.filter isNum)).length_eq,
      ← List.countP_eq_length_filter]
  · rw [hT]
    show List.Pairwise _ ((sortRowsDesc key (t.rows.filter isNum)).take n)
    exact (pairwise_sortRowsDesc key _).sublist (List.take_sublist n _)
  · rw [hT]
    intro r hr
    have hr1 : r ∈ sortRowsDesc key (t.rows.filter isNum) := List.mem_of_mem_take hr
    have hr2 : r ∈ t.rows.filter isNum := mem_sortRowsDesc hr1
    have hr3 := List.mem_filter.mp hr2
    exact ⟨hr3.1, hkey_of_num r hr3.2⟩
  · rw [hT]
    intro r hr
    have hcount : (sortRowsDesc key (t.rows.filter isNum)).countP
        (fun s => keyLt (key r) (key s)) < n :=
      countP_lt_of_mem_take (pairwise_sortRowsDesc key _) hr
    rw [(perm_sortRowsDesc key (t.rows.filter isNum)).countP_eq] at hcount
    rw [← countP_eq_countP_filter (fun s => hgt_num r s)] at hcount
    exact hcount
  · rw [hT]
    intro q
    have hpre : ((sortRowsDesc key (t.rows.filter isNum)).take n).filter
        (fun r => key r = some q) <+:
        (sortRowsDesc key (t.rows.filter isNum)).filter (fun r => key r = some q) :=
      (List.take_prefix n _).filter _
    rw [sortRowsDesc_filter key _ (some q)] at hpre
    rw [filter_filter_of_imp (fun r hq => hNum_of_key r q (of_decide_eq_true hq))] at hpre
    exact hpre

/-- The single row `nlargest` keeps from `nlargeCxT`. -/
def nlargeCxOut : Table :=
  { cols := ["关键词", "relevance_score"]
    rows := [[Cell.text "a", Cell.num 1]] }

/-- C5, witness: the amended selector characterisation applied to the
concrete two-row table with one null score. -/
theorem claim_C5_amended_witness :
    nlargeCxOut.cols = nlargeCxT.cols ∧
    nlargeCxOut.rows.length = min 2 (nlargeCxT.rows.countP (fun r =>
      match cellAt r 1 with
      | Cell.num _ => true
      | _ => false)) ∧
    nlargeCxOut.rows.Pairwise
      (fun r1 r2 => keyGe (sortKey (cellAt r1 1)) (sortKey (cellAt r2 1))) ∧
    (∀ r ∈ nlargeCxOut.rows, r ∈ nlargeCxT.rows ∧ ∃ q, sortKey (cellAt r 1) = some q) ∧
    (∀ r ∈ nlargeCxOut.rows,
      nlargeCxT.rows.countP
        (fun s => keyLt (sortKey (cellAt r 1)) (sortKey (cellAt s 1))) < 2) ∧
    (∀ q : ℚ, (nlargeCxOut.rows.filter (fun r => sortKey (cellAt r 1) = some q))
      <+: (nlargeCxT.rows.filter (fun r => sortKey (cellAt r 1) = some q))) :=
  claim_C5_amended (t := nlargeCxT) (T := nlargeCxOut) (n := 2) (i := 1)
    (by decide) (by decide)

/-! ### Claim C6 — percentage conversion -/

theorem parseUnsigned_chars {cs : List Char} {q : ℚ}
    (h : parseUnsigned cs = some q) :
    ∀ ch ∈ cs, ch = '.' ∨ ch.isDigit = true := by
  intro ch hch
  simp only [parseUnsigned] at h
  have hsplit : cs.takeWhile (fun c => c ≠ '.') ++ cs.dropWhile (fun c => c ≠ '.') = cs :=
    List.takeWhile_append_dropWhile _ _
  cases hrest : cs.dropWhile (fun c => c ≠ '.') with
  | nil =>
      rw [hrest] at h hsplit
      dsimp only at h
      by_cases hg : cs.takeWhile (fun c => c ≠ '.') ≠ [] ∧
          (cs.takeWhile (fun c => c ≠ '.')).all Char.isDigit
      · rw [← List.append_nil (cs.takeWhile (fun c => c ≠ '.'))] at hsplit
        rw [← hsplit] at hch
        simp only [List.append_nil] at hch
        exact Or.inr ((List.all_eq_true.mp hg.2) ch hch)
      · rw [if_neg hg] at h
        cases h
  | cons c0 fp =>
      rw [hrest] at h hsplit
      dsimp only at h
      by_cases hg : c0 = '.' ∧
          (cs.takeWhile (fun c => c ≠ '.') ≠ [] ∨ fp ≠ []) ∧
          (cs.takeWhile (fun c => c ≠ '.')).all Char.isDigit ∧ fp.all Char.isDigit
      · rw [← hsplit] at hch
        rcases List.mem_append.mp hch with hip | hcf
        · exact Or.inr ((List.all_eq_true.mp hg.2.2.1) ch hip)
        · rcases List.mem_cons.mp hcf with rfl | hfp
          · exact Or.inl hg.1
          · exact Or.inr ((List.all_eq_true.mp hg.2.2.2) ch hfp)
      · rw [if_neg hg] at h
        cases h

theorem parseNumber_no_pct {s : String} {q : ℚ} (h : parseNumber s = some q) :
    ∀ ch ∈ s.data, ch ≠ '%' := by
  intro ch hch hpct
  subst hpct
  have hdigit : ∀ ch : Char, ch = '.' ∨ ch.isDigit = true → ch ≠ '%' := by
    intro ch hd
    rcases hd with rfl | hd
    · decide
    · intro he
      rw [he] at hd
      exact absurd hd (by decide)
  unfold parseNumber at h
  cases hd : s.data with
  | nil =>
      rw [hd] at hch
      cases hch
  | cons c0 rest =>
      rw [hd] at h hch
      dsimp only at h
      by_cases hm : c0 = '-'
      · rw [if_pos hm] at h
        rcases Option.map_eq_some'.mp h with ⟨q', hq', -⟩
        rcases List.mem_cons.mp hch with rfl | hr
        · exact absurd hm (by decide)
        · exact hdigit _ (parseUnsigned_chars hq' _ hr) rfl
      · rw [if_neg hm] at h
        by_cases hp : c0 = '+'
        · rw [if_pos hp] at h
          rcases List.mem_cons.mp hch with rfl | hr
          · exact absurd hp (by decide)
          · exact hdigit _ (parseUnsigned_chars h _ hr) rfl
        · rw [if_neg hp] at h
          exact hdigit _ (parseUnsigned_chars h _ hch) rfl

theorem rstripPercent_append {s : String} (h : ∀ ch ∈ s.data, ch ≠ '%') :
    rstripPercent (s ++ "%") = s := by
  have hstep : (s ++ "%").data.reverse.dropWhile (fun c => c = '%')
      = s.data.reverse.dropWhile (fun c => c = '%') := by
    have hdata : (s ++ "%").data = s.data ++ ['%'] := rfl
    rw [hdata, List.reverse_append]
    show List.dropWhile _ ('%' :: s.data.reverse) = _
    rw [List.dropWhile_cons_of_pos (by decide)]
  have hfix : s.data.reverse.dropWhile (fun c => c = '%') = s.data.reverse := by
    cases hrev : s.data.reverse with
    | nil => simp
    | cons a as =>
        have ha : a ∈ s.data := by
          rw [← List.mem_reverse, hrev]
          exact List.mem_cons_self _ _
        exact List.dropWhile_cons_of_neg (by simpa using h a ha)
  show String.mk ((s ++ "%").data.reverse.dropWhile (fun c => c = '%')).reverse = s
  rw [hstep, hfix, List.reverse_reverse]

/-- The percentage-cell conversion on a well-formed percentage string:
strip the trailing `%`, parse, divide by 100. -/
theorem percentCell_spec {s : String} {q : ℚ} (h : parseNumber s = some q) :
    percentCell (Cell.text (s ++ "%")) = Cell.num (q / 100) := by
  unfold percentCell
  show (match parseNumber (rstripPercent (s ++ "%")) with
    | some q => Cell.num (q / 100)
    | none => Cell.missing) = _
  rw [rstripPercent_append (parseNumber_no_pct h), h]

theorem coerceCol_colCells_self {u : Table} {c : String} {f : Cell → Cell} {j : Nat}
    (hj : colIdx u c = some j) (hf : f Cell.missing = Cell.missing) :
    colCells (coerceCol u c f) j = (colCells u j).map f := by
  unfold coerceCol
  rw [hj]
  show (u.rows.map _).map _ = _
  unfold colCells
  rw [List.map_map, List.map_map]
  refine List.map_congr_left (fun r _ => ?_)
  show cellAt (r.set j (f (cellAt r j))) j = f (cellAt r j)
  by_cases hlen : j < r.length
  · exact cellAt_set_self hlen
  · rw [set_of_length_le (Nat.le_of_not_lt hlen)]
    have : cellAt r j = Cell.missing := by
      unfold cellAt
      rw [List.getD_eq_getElem?_getD, List.getElem?_eq_none (Nat.le_of_not_lt hlen)]
      rfl
    rw [this, hf]

theorem coerceCol_colCells_other {u : Table} {c c' : String} {f : Cell → Cell}
    {j : Nat} (hj : colIdx u c = some j) (hne : c' ≠ c) :
    colCells (coerceCol u c' f) j = colCells u j := by
  unfold coerceCol
  cases hx : colIdx u c' with
  | none => rfl
  | some i =>
      show colCells { u with rows := _ } j = _
      unfold colCells
      show (u.rows.map _).map _ = _
      rw [List.map_map]
      refine List.map_congr_left (fun r _ => ?_)
      exact cellAt_set_ne (colIdx_ne hx hj hne)

theorem foldl_coerceCol_colCells_other {u : Table} {L : List String} {c : String}
    {f : Cell → Cell} {j : Nat} (hj : colIdx u c = some j)
    (hL : ∀ d ∈ L, d ≠ c) :
    colCells (L.foldl (fun a d => coerceCol a d f) u) j = colCells u j := by
  induction L generalizing u with
  | nil => rfl
  | cons d L ih =>
      rw [List.foldl_cons]
      have hj' : colIdx (coerceCol u d f) c = some j := by
        rw [colIdx_eq_of_cols_eq (coerceCol_cols u d f) c]
        exact hj
      rw [ih hj' (fun e he => hL e (List.mem_cons_of_mem _ he)),
        coerceCol_colCells_other hj (hL d (List.mem_cons_self _ _))]

theorem foldl_coerceCol_colCells_self {u : Table} {L : List String} {c : String}
    {f : Cell → Cell} {j : Nat} (hnd : L.Nodup) (hc : c ∈ L)
    (hj : colIdx u c = some j) (hf : f Cell.missing = Cell.missing) :
    colCells (L.foldl (fun a d => coerceCol a d f) u) j = (colCells u j).map f := by
  induction L generalizing u with
  | nil => cases hc
  | cons d L ih =>
      rw [List.foldl_cons]
      rw [List.nodup_cons] at hnd
      rcases List.mem_cons.mp hc with rfl | hc'
      · have hj' : colIdx (coerceCol u c f) c = some j := by
          rw [colIdx_eq_of_cols_eq (coerceCol_cols u c f) c]
          exact hj
        rw [foldl_coerceCol_colCells_other hj'
            (fun e he heq => hnd.1 (heq ▸ he)),
          coerceCol_colCells_self hj hf]
      · have hj' : colIdx (coerceCol u d f) c = some j := by
          rw [colIdx_eq_of_cols_eq (coerceCol_cols u d f) c]
          exact hj
        have hdc : d ≠ c := fun heq => hnd.1 (heq ▸ hc')
        rw [ih hnd.2 hc' hj', coerceCol_colCells_other hj hdc]

/-- Column-level effect of the percentage stage of `preprocess_sif`: every
column matching the per-competitor pattern is, after key-row filtering,
mapped cell-wise by `percentCell`. -/
theorem sifPercent_column {t t' : Table} {c : String} {j ki : Nat}
    (hnd : t.cols.Nodup)
    (hj : colIdx t c = some j) (hpct : isSifPercentCol c = true)
    (hki : colIdx t "关键词" = some ki)
    (h : sifPreSort t = Except.ok t') :
    colCells t' j =
      (t.rows.filter (fun r => cellAt r ki ≠ Cell.missing)).map
        (fun r => percentCell (cellAt r j)) := by
  rw [sifPreSort_eq] at h
  have hdrop : dropnaCol t "关键词" = Except.ok
      { t with rows := t.rows.filter (fun r => cellAt r ki ≠ Cell.missing) } := by
    unfold dropnaCol
    rw [hki]
  rw [hdrop] at h
  simp only [Except.map] at h
  set t1 : Table := { t with rows := t.rows.filter (fun r => cellAt r ki ≠ Cell.missing) }
    with ht1
  set t2 : Table := sifNumericCols.foldl (fun a d => coerceCol a d toNumericCell) t1
    with ht2
  have ht' : t' = (t2.cols.filter isSifPercentCol).foldl
      (fun a d => coerceCol a d percentCell) t2 := (Except.ok.inj h).symm
  have hcols2 : t2.cols = t.cols := by
    rw [ht2, foldl_coerceCol_cols]
  have hj1 : colIdx t1 c = some j := hj
  have hj2 : colIdx t2 c = some j := by
    rw [colIdx_eq_of_cols_eq (by rw [hcols2] : t2.cols = t.cols) c]
    exact hj
  have hnum_ne : ∀ d ∈ sifNumericCols, d ≠ c := by
    have hall : ∀ d ∈ sifNumericCols, isSifPercentCol d = false := by decide
    intro d hd heq
    have hfd := hall d hd
    rw [heq, hpct] at hfd
    cases hfd
  have hc2 : colCells t2 j = colCells t1 j := by
    rw [ht2]
    exact foldl_coerceCol_colCells_other hj1 hnum_ne
  have hLnd : (t2.cols.filter isSifPercentCol).Nodup := by
    rw [hcols2]
    exact hnd.filter _
  have hcL : c ∈ t2.cols.filter isSifPercentCol := by
    rw [hcols2]
    refine List.mem_filter.mpr ⟨?_, hpct⟩
    have hlt := findIdx?_lt_length hj
    have hget : t.cols.getD j "" = t.cols.get ⟨j, hlt⟩ := by
      rw [List.getD_eq_getElem?_getD, List.getElem?_eq_getElem hlt]
      rfl
    rw [← colIdx_name hj, hget]
    exact List.getElem_mem hlt
  rw [ht', foldl_coerceCol_colCells_self hLnd hcL hj2 (by decide), hc2]
  show ((t.rows.filter (fun r => cellAt r ki ≠ Cell.missing)).map
    (fun r => cellAt r j)).map percentCell = _
  rw [List.map_map]
  rfl

/-- C6, counterexample: a cell of the form `"<number>%"` need not land in
[0, 1] — `"250%"` converts to 2.5, so the claim's universal [0, 1] bound is
false; it holds only when the number lies in [0, 100]. -/
theorem claim_C6_counterexample :
    parseNumber "250" = some 250 ∧
    percentCell (Cell.text "250%") = Cell.num (5 / 2) ∧
    ¬ ((5 / 2 : ℚ) ≤ 1) := by
  refine ⟨by decide, by decide, by decide⟩

/-- C6, amended: every SearchFrequency column matching the per-competitor
pattern (label starting `B0` without the classification marker) is, after
key-row filtering, converted cell-wise by stripping the trailing `%` and
dividing the parsed number by 100; `"3.4512%"` becomes exactly 0.034512;
and the converted value lies in [0, 1] whenever the number lies in
[0, 100] (not for every `"<number>%"` cell — see the counterexample). -/
theorem claim_C6_amended :
    (∀ (s : String) (q : ℚ), parseNumber s = some q →
      percentCell (Cell.text (s ++ "%")) = Cell.num (q / 100)) ∧
    percentCell (Cell.text "3.4512%") = Cell.num (34512 / 1000000) ∧
    (∀ (s : String) (q : ℚ), parseNumber s = some q → 0 ≤ q → q ≤ 100 →
      0 ≤ q / 100 ∧ q / 100 ≤ 1) ∧
    (∀ (t t' : Table) (c : String) (j ki : Nat), t.cols.Nodup →
      colIdx t c = some j → isSifPercentCol c = true →
      colIdx t "关键词" = some ki → sifPreSort t = Except.ok t' →
      colCells t' j =
        (t.rows.filter (fun r => cellAt r ki ≠ Cell.missing)).map
          (fun r => percentCell (cellAt r j))) := by
  refine ⟨fun s q h => percentCell_spec h, by decide, ?_, ?_⟩
  · intro s q _ h0 h100
    refine ⟨div_nonneg h0 (by norm_num), ?_⟩
    rw [div_le_one (by norm_num : (0 : ℚ) < 100)]
    exact h100
  · intro t t' c j ki hnd hj hpct hki h
    exact sifPercent_column hnd hj hpct hki h

/-- C6, witness: the conversion, the range bound and the column-level
mapping applied to concrete inputs. -/
theorem claim_C6_amended_witness :
    percentCell (Cell.text ("3.4512" ++ "%")) = Cell.num ((2157 / 625 : ℚ) / 100) ∧
    (0 ≤ (2157 / 625 : ℚ) / 100 ∧ (2157 / 625 : ℚ) / 100 ≤ 1) ∧
    colCells sifPctTableOnce 1 =
      (sifPctTable.rows.filter (fun r => cellAt r 0 ≠ Cell.missing)).map
        (fun r => percentCell (cellAt r 1)) :=
  ⟨claim_C6_amended.1 "3.4512" (2157 / 625) (by decide),
   claim_C6_amended.2.2.1 "3.4512" (2157 / 625) (by decide) (by decide) (by decide),
   claim_C6_amended.2.2.2 sifPctTable sifPctTableOnce "B0TEST" 1 0 (by decide)
     (by decide) (by decide) (by decide) (by decide)⟩

/-! ### Claim C8 — competitor-identifier aggregation -/

theorem aggregateAsins_fold_eq (cells : List Cell) (acc : List String) :
    cells.foldl
      (fun acc cl =>
        match cl with
        | Cell.text s => acc ++ splitStrip s
        | _ => acc) acc
      = acc ++ ((cells.filterMap (fun cl =>
          match cl with
          | Cell.text s => some s
          | _ => none)).flatMap splitStrip) := by
  induction cells generalizing acc with
  | nil => simp
  | cons cl cells ih =>
      cases cl with
      | text s =>
          rw [List.foldl_cons]
          show (cells.foldl _ (acc ++ splitStrip s)) = _
          rw [ih]
          simp [List.append_assoc]
      | num q =>
          rw [List.foldl_cons]
          show (cells.foldl _ acc) = _
          rw [ih]
          rfl
      | missing =>
          rw [List.foldl_cons]
          show (cells.foldl _ acc) = _
          rw [ih]
          rfl

/-- C8: the aggregated competitor identifiers are exactly the comma-split,
stripped entries of the selected rows' text cells (missing and numeric
cells are skipped by `dropna`/`isinstance`), flattened in selection order,
deduplicated preserving first-seen order, and truncated to 10; the
two-cell scenario "B1,B2", "B2,B3" yields ["B1", "B2", "B3"], and the same
holds across five selected rows. -/
theorem claim_C8 :
    (∀ cells : List Cell, aggregateAsins cells =
      (dedupFirstSeen ((cells.filterMap (fun cl =>
        match cl with
        | Cell.text s => some s
        | _ => none)).flatMap splitStrip)).take 10) ∧
    aggregateAsins [Cell.text "B1,B2", Cell.text "B2,B3"] = ["B1", "B2", "B3"] ∧
    aggregateAsins [Cell.text "B1,B2", Cell.text "B1", Cell.missing,
      Cell.text "B2,B3", Cell.text "B2"] = ["B1", "B2", "B3"] := by
  refine ⟨?_, by decide, by decide⟩
  intro cells
  unfold aggregateAsins
  rw [aggregateAsins_fold_eq cells []]
  rfl

/-! ### Claim C9 — record-oriented serialisation round-trip -/

theorem cellAt_range (r : List Cell) :
    (List.range r.length).map (fun i => cellAt r i) = r := by
  induction r with
  | nil => rfl
  | cons a rr ih =>
      rw [List.length_cons, List.range_succ_eq_map, List.map_cons, List.map_map]
      refine congrArg₂ List.cons rfl ?_
      calc (List.range rr.length).map ((fun i => cellAt (a :: rr) i) ∘ Nat.succ)
          = (List.range rr.length).map (fun i => cellAt rr i) :=
            List.map_congr_left (fun i _ => rfl)
        _ = rr := ih

/-- C9: serialising a (rectangular, uniquely-labelled) table to the
record-oriented JSON form and parsing it back preserves the row count and
every cell value — in particular all non-null values — and every missing
cell serialises as the explicit `null` token: the `NaN` literal never
occurs in the output thanks to the `replace({np.nan: None})` step. -/
theorem claim_C9 (t : Table) (hrect : t.rect = true) (hnd : t.cols.Nodup) :
    ∃ out, format_as_json t = Except.ok out ∧
      out.length = t.rows.length ∧
      out.map (fun rec => (rec.map Prod.snd).map parseJVal) = t.rows ∧
      hasNanLiteral out = false := by
  unfold format_as_json
  rw [if_pos hnd]
  refine ⟨_, rfl, by rw [List.length_map], ?_, ?_⟩
  · rw [List.map_map]
    conv_rhs => rw [← List.map_id t.rows]
    refine List.map_congr_left (fun r hr => ?_)
    show ((t.cols.enum.map _).map Prod.snd).map parseJVal = r
    rw [List.map_map, List.map_map]
    have hcomp : ∀ ci : Nat × String,
        (parseJVal ∘ (Prod.snd ∘ (fun ci : Nat × String =>
          (ci.2, match cellAt r ci.1 with
                 | Cell.missing => JVal.jnull
                 | cl => dumpCellRaw cl)))) ci = cellAt r ci.1 := by
      intro ci
      show parseJVal (match cellAt r ci.1 with
        | Cell.missing => JVal.jnull
        | cl => dumpCellRaw cl) = cellAt r ci.1
      cases cellAt r ci.1 <;> rfl
    calc t.cols.enum.map (parseJVal ∘ (Prod.snd ∘ _))
        = t.cols.enum.map (fun ci => cellAt r ci.1) :=
          List.map_congr_left (fun ci _ => hcomp ci)
      _ = (t.cols.enum.map Prod.fst).map (fun i => cellAt r i) := by
          rw [List.map_map]
          rfl
      _ = (List.range t.cols.length).map (fun i => cellAt r i) := by
          rw [List.enum_map_fst]
      _ = (List.range r.length).map (fun i => cellAt r i) := by
          rw [rect_row_len hrect hr]
      _ = r := cellAt_range r
  · unfold hasNanLiteral
    rw [List.any_eq_false]
    intro rec hrec
    rw [Bool.not_eq_true, List.any_eq_false]
    intro pr hpr
    obtain ⟨r, -, hr⟩ := List.mem_map.mp hrec
    subst hr
    obtain ⟨ci, -, hci⟩ := List.mem_map.mp hpr
    subst hci
    simp only [decide_eq_true_eq]
    cases cellAt r ci.1 <;> simp [dumpCellRaw]

/-- C9, witness: the round-trip applied to a concrete table (with a missing
cell, serialised as `null`). -/
theorem claim_C9_witness :
    ∃ out, format_as_json scoreCxT = Except.ok out ∧
      out.length = scoreCxT.rows.length ∧
      out.map (fun rec => (rec.map Prod.snd).map parseJVal) = scoreCxT.rows ∧
      hasNanLiteral out = false :=
  claim_C9 scoreCxT (by decide) (by decide)

/-! ### Claim C2 — normalizers are not on the `process_input_files` path -/

/-- A SellerMetrics-shaped table with a second row whose join-key cell is
missing: the normalizer would drop that row, but the raw pipeline keeps
it. -/
def sellerC2T : Table :=
  { cols := ["关键词", "月搜索量", "月购买量", "购买率", "流量占比", "前十ASIN"]
    rows := [[Cell.text "a", Cell.num 100, Cell.num 10, Cell.num (1 / 20),
              Cell.num (1 / 10), Cell.text "B1"],
             [Cell.missing, Cell.num 50, Cell.num 5, Cell.num (1 / 40),
              Cell.num (1 / 20), Cell.text "B2"]] }

/-- C2, counterexample: `process_input_files` consumes the freshly loaded
tables directly — `preprocess_dataframe` is never invoked on this path —
so on a seller table with a missing-keyword row the pipeline keeps the row
(2 keywords analyzed), while the spec's normalize-first flow would drop it
(1 keyword analyzed). -/
theorem claim_C2_counterexample :
    (process_input_files sellerC2T sifWitnessT "Amazing Cosy" "Slippers" 5).map
        (fun b => b.meta_total_keywords_analyzed) = Except.ok 2 ∧
    (process_with_normalization sellerC2T sifWitnessT "Amazing Cosy" "Slippers" 5).map
        (fun b => b.meta_total_keywords_analyzed) = Except.ok 1 ∧
    (2 : Nat) ≠ 1 := by
  refine ⟨by decide, by decide, by decide⟩

/-- C2, amended: the pipeline joins, scores and selects on the raw loaded
tables without applying the profile normalizers; it agrees with the spec's
normalize-first flow exactly on inputs that are already fixed points of
their normalizers. -/
theorem claim_C2_amended (t1 t2 : Table) (brand ptype : String) (n : Nat)
    (h1 : preprocess_seller_elf t1 = Except.ok t1)
    (h2 : preprocess_sif t2 = Except.ok t2) :
    process_with_normalization t1 t2 brand ptype n
      = process_input_files t1 t2 brand ptype n := by
  unfold process_with_normalization
  rw [h1, exceptBind_ok, h2, exceptBind_ok]

/-- C2, witness: the two flows agree on a concrete pair of already-normal
tables. -/
theorem claim_C2_amended_witness :
    process_with_normalization sellerWitnessT sifWitnessT "Amazing Cosy" "Slippers" 1
      = process_input_files sellerWitnessT sifWitnessT "Amazing Cosy" "Slippers" 1 :=
  claim_C2_amended sellerWitnessT sifWitnessT "Amazing Cosy" "Slippers" 1
    (by decide) (by decide)

/-! ### Claim C10 — hardcoded competitor brand list -/

/-- C10: whenever `process_input_files` succeeds, the `competitor_brands`
field of the returned bundle is the fixed five-element list
["UGG", "Bearpaw", "Dearfoams", "Skechers", "Crocs"], independent of both
input tables, the brand name, the product type and `top_n`: the list is a
hardcoded literal, never derived from the inputs. -/
theorem claim_C10 (seller sif : Table) (brand ptype : String) (n : Nat) :
    (process_input_files seller sif brand ptype n).map (fun b => b.competitor_brands)
      = (process_input_files seller sif brand ptype n).map
          (fun _ => ["UGG", "Bearpaw", "Dearfoams", "Skechers", "Crocs"]) := by
  unfold process_input_files
  simp only [bind, Except.bind]
  repeat' split
  all_goals rfl

end SellerAssistant
